import Mathlib

/-!
# Containers2: `VectorView<T>` and `Vector<T>` over an explicit heap

A shallow embedding of `Containers2/containers2.hpp`.

* Memory is an explicit `Heap`: a list of blocks, each either live (holding its
  cells) or already released by `delete[]`.
* A `T*` is a `Ptr`: `none` is `nullptr`, `some ⟨b, o⟩` points at cell `o` of
  block `b`.
* `size_t` values are natural numbers.  A block only exists after `new T[s]`
  succeeded, so pointer arithmetic inside a block never wraps.
* Operations whose C++ behaviour is undefined (reading or writing outside a
  live block, subtracting unrelated pointers, releasing something that is not
  the start of a live block) are reported as undefined instead of being given
  an arbitrary meaning.
* `new T[s]` is answered by an explicit `Alloc` response: it either throws
  `std::bad_alloc`, or hands out a fresh block whose indeterminate content is
  given by the response.
* A built-in array is a block of the same memory; a view constructed from an
  array or from a vector holds pointers into that block.
* The conversion matrix of `test.cpp` is decided by overload resolution over
  the constructors and assignment operators the header declares
  (`is_assignable`), and compared with the `static_assert` entries.
* A program over several owning arrays is a `World` (heap and arrays) driven
  by a list of `Op`; single ownership is an invariant of every run.
-/

namespace containers2

/-! ## Memory -/

/-- Address of one cell: block number and offset inside the block. -/
structure Addr where
  block : Nat
  off : Nat
deriving DecidableEq, Repr

/-- A raw pointer `T*`; `none` is `nullptr`. -/
abbrev Ptr := Option Addr

/-- Pointer arithmetic `p + k`. A null pointer stays null; whether the result
may be dereferenced is decided by `Heap.read` and `Heap.write`. -/
def Ptr.add (p : Ptr) (k : Nat) : Ptr :=
  match p with
  | none => none
  | some a => some ⟨a.block, a.off + k⟩

/-- Pointer difference `e - b` as used by `size()`: defined for two null
pointers and for two pointers into the same block with `b` not after `e`. -/
def Ptr.diff (e b : Ptr) : Option Nat :=
  match e, b with
  | none, none => some 0
  | some e, some b => if e.block = b.block ∧ b.off ≤ e.off then some (e.off - b.off) else none
  | _, _ => none

/-- The heap: block `b` is `blocks[b]`, `some cells` while live and `none`
once it has been released. -/
structure Heap (T : Type) where
  blocks : List (Option (List T))
deriving DecidableEq, Repr

/-- Answer of the allocator to one `new T[s]`. -/
inductive Alloc (T : Type) where
  /-- The allocation throws `std::bad_alloc`. -/
  | fail
  /-- The allocation succeeds; cell `i` of the fresh block initially holds `junk i`. -/
  | ok (junk : Nat → T)

/-- Outcome of a call: normal return, `std::bad_alloc` leaving the call (with
the program state it leaves behind), or undefined behaviour. -/
inductive Result (ε α : Type) where
  | ok (a : α)
  | bad_alloc (e : ε)
  | undefined
deriving DecidableEq, Repr

variable {T : Type}

/-- Read `*p`. -/
def Heap.read (h : Heap T) (p : Ptr) : Option T :=
  match p with
  | none => none
  | some a =>
    match h.blocks[a.block]? with
    | some (some cells) => cells[a.off]?
    | _ => none

/-- Write `*p = x`. -/
def Heap.write (h : Heap T) (p : Ptr) (x : T) : Option (Heap T) :=
  match p with
  | none => none
  | some a =>
    match h.blocks[a.block]? with
    | some (some cells) =>
      if a.off < cells.length then
        some ⟨h.blocks.set a.block (some (cells.set a.off x))⟩
      else none
    | _ => none

/-- The expression `new T[s]`: `none` when it throws, otherwise the heap with
the fresh block appended and the pointer to its first cell. -/
def Heap.new (h : Heap T) (s : Nat) (r : Alloc T) : Option (Heap T × Ptr) :=
  match r with
  | Alloc.fail => none
  | Alloc.ok junk =>
    some (⟨h.blocks ++ [some ((List.range s).map junk)]⟩, some ⟨h.blocks.length, 0⟩)

/-- The expression `delete[] p`: nothing for `nullptr`, otherwise `p` must be
the start of a live block, which is released. `none` is undefined behaviour. -/
def Heap.delete (h : Heap T) (p : Ptr) : Option (Heap T) :=
  match p with
  | none => some h
  | some a =>
    match h.blocks[a.block]? with
    | some (some _) => if a.off = 0 then some ⟨h.blocks.set a.block none⟩ else none
    | _ => none

/-- Read `k` consecutive cells starting at `p`. -/
def Heap.readN (h : Heap T) : Nat → Ptr → Option (List T)
  | 0, _ => some []
  | k + 1, p =>
    match h.read p with
    | none => none
    | some x =>
      match Heap.readN h k (p.add 1) with
      | none => none
      | some xs => some (x :: xs)

/-! ## Standard-library algorithms used by the header -/

/-- The loop of `std::fill_n(first, count, value)`. -/
def fill_n (value : T) : Nat → Heap T → Ptr → Option (Heap T)
  | 0, h, _ => some h
  | k + 1, h, first =>
    match h.write first value with
    | none => none
    | some h1 => fill_n value k h1 (first.add 1)

/-- The call `std::fill(first, last, value)`: assigns `value` to every cell of
`[first, last)`. The range must be a valid one (`last` reachable from `first`);
anything else is undefined behaviour. -/
def fill (h : Heap T) (first last : Ptr) (value : T) : Option (Heap T) :=
  match Ptr.diff last first with
  | none => none
  | some k => fill_n value k h first

/-- The call `std::copy_n(first, count, result)`: copies `count` cells and
returns the pointer past the last cell written. -/
def copy_n : Nat → Heap T → Ptr → Ptr → Option (Heap T × Ptr)
  | 0, h, _, result => some (h, result)
  | k + 1, h, first, result =>
    match h.read first with
    | none => none
    | some x =>
      match h.write result x with
      | none => none
      | some h1 => copy_n k h1 (first.add 1) (result.add 1)

/-- The call `std::copy(std::begin(l), std::end(l), result)` for an
initializer list `l`. -/
def copy_list : List T → Heap T → Ptr → Option (Heap T × Ptr)
  | [], h, result => some (h, result)
  | x :: xs, h, result =>
    match h.write result x with
    | none => none
    | some h1 => copy_list xs h1 (result.add 1)

/-- The call `std::exchange(obj, new_value)`: the value returned and the new
content of `obj`. -/
def exchange {α : Type} (obj new_value : α) : α × α := (obj, new_value)

/-! ## VectorView -/

/-- Element constness of a view or vector: `VectorView<const T>` is
`VectorView T .immutable`, `VectorView<T>` is `VectorView T .mutable`. -/
inductive Qual where
  | immutable
  | mutable
deriving DecidableEq, Repr

/-- The struct `VectorView<T>`: the two fields `begin_` and `end_`, both
`nullptr` by default. -/
structure VectorView (T : Type) (q : Qual) where
  begin_ : Ptr := none
  end_ : Ptr := none
deriving DecidableEq, Repr

namespace VectorView

variable {q : Qual}

/-- Member `begin()`. -/
def begin (v : VectorView T q) : Ptr := v.begin_

/-- Member `end()`. -/
def «end» (v : VectorView T q) : Ptr := v.end_

/-- Member `data()`. -/
def data (v : VectorView T q) : Ptr := v.begin_

/-- Member `size()`: `end() - begin()`. -/
def size (v : VectorView T q) : Option Nat := Ptr.diff v.«end» v.begin

/-- Member `operator[]`: reads `begin_[index]`. -/
def get (h : Heap T) (v : VectorView T q) (index : Nat) : Option T :=
  h.read (v.begin_.add index)

/-- The elements met when traversing the view from `begin()` to `end()`. -/
def toList (h : Heap T) (v : VectorView T q) : Option (List T) :=
  match v.size with
  | none => none
  | some n => h.readN n v.begin

/-- Slicing a `VectorView<T>` to its base `VectorView<const T>`. -/
def toConst (v : VectorView T Qual.mutable) : VectorView T Qual.immutable :=
  { begin_ := v.begin_, end_ := v.end_ }

/-- A `VectorView<T>` whose base subobject `VectorView<const T>` has been
replaced by `base`. -/
def withConstBase (_v : VectorView T Qual.mutable) (base : VectorView T Qual.immutable) :
    VectorView T Qual.mutable :=
  { begin_ := base.begin_, end_ := base.end_ }

end VectorView

/-! ## Vector -/

/-- The struct `Vector<T>`, derived from `VectorView<T>` without fields of its own. -/
structure Vector (T : Type) (q : Qual) extends VectorView T q
deriving DecidableEq, Repr

/-- The four tags selecting a `resize` overload, with the value the
initialized overloads take. -/
inductive Policy (T : Type) where
  | uninitialized
  | initialized (value : T)
  | non_preserving_uninitialized
  | non_preserving_initialized (value : T)

namespace Vector

variable {q : Qual}

/-- Member `size()` inherited from the view. -/
def size (a : Vector T q) : Option Nat := a.toVectorView.size

/-- Member `operator[]` inherited from the view. -/
def get (h : Heap T) (a : Vector T q) (index : Nat) : Option T := a.toVectorView.get h index

/-- The elements of the vector from `begin()` to `end()`. -/
def toList (h : Heap T) (a : Vector T q) : Option (List T) := a.toVectorView.toList h

/-- Constructor `Vector(T* memory, size_t s)`. -/
def ofMemory (memory : Ptr) (s : Nat) : Vector T q :=
  { begin_ := memory, end_ := memory.add s }

/-- Constructor `Vector()`. -/
def default : Vector T q := {}

/-- Constructor `Vector(size_t s, uninitialized_tag_t)`: `Vector(new T[s], s)`. -/
def uninitialized (s : Nat) (r : Alloc T) (h : Heap T) :
    Result (Heap T) (Heap T × Vector T Qual.mutable) :=
  match h.new s r with
  | none => Result.bad_alloc h
  | some (h1, memory) => Result.ok (h1, ofMemory memory s)

/-- Constructor `Vector(size_t s, T value, initialized_tag_t)`. -/
def initialized (s : Nat) (value : T) (r : Alloc T) (h : Heap T) :
    Result (Heap T) (Heap T × Vector T Qual.mutable) :=
  match uninitialized s r h with
  | Result.bad_alloc e => Result.bad_alloc e
  | Result.undefined => Result.undefined
  | Result.ok (h1, this) =>
    match fill h1 this.begin this.«end» value with
    | none => Result.undefined
    | some h2 => Result.ok (h2, this)

/-- Constructor `Vector(std::initializer_list<T> l)`. -/
def ofList (l : List T) (r : Alloc T) (h : Heap T) :
    Result (Heap T) (Heap T × Vector T Qual.mutable) :=
  match uninitialized l.length r h with
  | Result.bad_alloc e => Result.bad_alloc e
  | Result.undefined => Result.undefined
  | Result.ok (h1, this) =>
    match copy_list l h1 this.begin with
    | none => Result.undefined
    | some (h2, _) => Result.ok (h2, this)

/-- Move constructor `Vector(Vector&& rhs)`: the constructed vector and `rhs`
afterwards. -/
def move (rhs : Vector T q) : Vector T q × Vector T q :=
  let (old, rhs_view) := exchange rhs.toVectorView {}
  ({ toVectorView := old }, { rhs with toVectorView := rhs_view })

/-- Move assignment `operator=(Vector&& rhs)`: `*this` and `rhs` afterwards. -/
def move_assign (this rhs : Vector T q) : Vector T q × Vector T q :=
  let (old, rhs_view) := exchange rhs.toVectorView {}
  ({ this with toVectorView := old }, { rhs with toVectorView := rhs_view })

/-- Converting move constructor `Vector<const T>(Vector<T>&& rhs)`. -/
def move_converting (rhs : Vector T Qual.mutable) :
    Vector T Qual.immutable × Vector T Qual.mutable :=
  let (old, rhs_view) := exchange rhs.toVectorView {}
  ({ toVectorView := old.toConst }, { rhs with toVectorView := rhs_view })

/-- Converting move assignment `Vector<const T>::operator=(Vector<T>&& rhs)`. -/
def move_assign_converting (this : Vector T Qual.immutable) (rhs : Vector T Qual.mutable) :
    Vector T Qual.immutable × Vector T Qual.mutable :=
  let (old, rhs_base) := exchange rhs.toVectorView.toConst {}
  ({ this with toVectorView := old },
   { rhs with toVectorView := rhs.toVectorView.withConstBase rhs_base })

/-- Destructor `~Vector()`: `delete[] begin()`. `none` is undefined behaviour. -/
def destroy (h : Heap T) (this : Vector T q) : Option (Heap T) :=
  h.delete this.begin

/-- Overload `resize(size_t s, non_preserving_uninitialized_tag_t)`. -/
def resize_non_preserving_uninitialized (s : Nat) (r : Alloc T) (h : Heap T)
    (this : Vector T Qual.mutable) :
    Result (Heap T × Vector T Qual.mutable) (Heap T × Vector T Qual.mutable) :=
  match this.size with
  | none => Result.undefined
  | some old_size =>
    if old_size ≠ s then
      match uninitialized s r h with
      | Result.bad_alloc e => Result.bad_alloc (e, this)
      | Result.undefined => Result.undefined
      | Result.ok (h1, new_vector) =>
        let (this1, new_vector1) := move_assign this new_vector
        match destroy h1 new_vector1 with
        | none => Result.undefined
        | some h2 => Result.ok (h2, this1)
    else Result.ok (h, this)

/-- Overload `resize(size_t s, T value, non_preserving_initialized_tag_t)`. -/
def resize_non_preserving_initialized (s : Nat) (value : T) (r : Alloc T) (h : Heap T)
    (this : Vector T Qual.mutable) :
    Result (Heap T × Vector T Qual.mutable) (Heap T × Vector T Qual.mutable) :=
  match resize_non_preserving_uninitialized s r h this with
  | Result.bad_alloc e => Result.bad_alloc e
  | Result.undefined => Result.undefined
  | Result.ok (h1, this1) =>
    match fill h1 this1.begin this1.«end» value with
    | none => Result.undefined
    | some h2 => Result.ok (h2, this1)

/-- Overload `resize(size_t s, uninitialized_tag_t)`. -/
def resize_uninitialized (s : Nat) (r : Alloc T) (h : Heap T)
    (this : Vector T Qual.mutable) :
    Result (Heap T × Vector T Qual.mutable) (Heap T × Vector T Qual.mutable) :=
  match this.size with
  | none => Result.undefined
  | some old_size =>
    if old_size ≠ s then
      match uninitialized s r h with
      | Result.bad_alloc e => Result.bad_alloc (e, this)
      | Result.undefined => Result.undefined
      | Result.ok (h1, new_vector) =>
        match copy_n (min s old_size) h1 this.begin new_vector.begin with
        | none => Result.undefined
        | some (h2, _) =>
          let (this1, new_vector1) := move_assign this new_vector
          match destroy h2 new_vector1 with
          | none => Result.undefined
          | some h3 => Result.ok (h3, this1)
    else Result.ok (h, this)

/-- Overload `resize(size_t s, T value, initialized_tag_t)`. -/
def resize_initialized (s : Nat) (value : T) (r : Alloc T) (h : Heap T)
    (this : Vector T Qual.mutable) :
    Result (Heap T × Vector T Qual.mutable) (Heap T × Vector T Qual.mutable) :=
  match this.size with
  | none => Result.undefined
  | some old_size =>
    if old_size ≠ s then
      match uninitialized s r h with
      | Result.bad_alloc e => Result.bad_alloc (e, this)
      | Result.undefined => Result.undefined
      | Result.ok (h1, new_vector) =>
        match copy_n (min s old_size) h1 this.begin new_vector.begin with
        | none => Result.undefined
        | some (h2, out) =>
          match fill h2 out new_vector.«end» value with
          | none => Result.undefined
          | some h3 =>
            let (this1, new_vector1) := move_assign this new_vector
            match destroy h3 new_vector1 with
            | none => Result.undefined
            | some h4 => Result.ok (h4, this1)
    else Result.ok (h, this)

/-- The call `a.resize(s, ...)` with the overload selected by the tag. -/
def resize (p : Policy T) (s : Nat) (r : Alloc T) (h : Heap T) (this : Vector T Qual.mutable) :
    Result (Heap T × Vector T Qual.mutable) (Heap T × Vector T Qual.mutable) :=
  match p with
  | Policy.uninitialized => resize_uninitialized s r h this
  | Policy.initialized value => resize_initialized s value r h this
  | Policy.non_preserving_uninitialized => resize_non_preserving_uninitialized s r h this
  | Policy.non_preserving_initialized value => resize_non_preserving_initialized s value r h this

end Vector

/-! ## The vector of the `VectorResize` test -/

/-- The empty heap. -/
def Heap.empty : Heap T := ⟨[]⟩

/-- Indeterminate content used in the examples: every cell of a fresh block
holds `-1`. -/
def test_junk : Nat → Int := fun _ => -1

/-- The heap after `Vector<int> vector{ 5, 7, 12 }` ran on the empty heap. -/
def test_heap : Heap Int := ⟨[some [5, 7, 12]]⟩

/-- The vector `vector{ 5, 7, 12 }`: it owns block `0`. -/
def test_vector : Vector Int Qual.mutable := Vector.ofMemory (some ⟨0, 0⟩) 3

/-! ## Built-in arrays and the construction of views -/

/-- A built-in array `T arr[N]`: the block that holds it and its extent `N`. -/
structure FixedArray where
  block : Nat
  extent : Nat
deriving DecidableEq, Repr

namespace FixedArray

/-- The pointer `std::begin(arr)`. -/
def begin (arr : FixedArray) : Ptr := some ⟨arr.block, 0⟩

/-- The pointer `std::end(arr)`. -/
def «end» (arr : FixedArray) : Ptr := some ⟨arr.block, arr.extent⟩

/-- The expression `arr[index]`, read directly. -/
def get (h : Heap T) (arr : FixedArray) (index : Nat) : Option T :=
  h.read (some ⟨arr.block, index⟩)

end FixedArray

namespace VectorView

variable {q : Qual}

/-- Constructor `VectorView(T(&arr)[N])`, of `VectorView<const T>` and, through
`super{arr}`, of `VectorView<T>`. -/
def ofArray (arr : FixedArray) : VectorView T q :=
  { begin_ := arr.begin, end_ := arr.«end» }

/-- Constructor `VectorView(T* begin, T* end)`. -/
def ofPointers (first last : Ptr) : VectorView T q :=
  { begin_ := first, end_ := last }

/-- Constructor `VectorView()`. -/
def default : VectorView T q := {}

/-- The assignment `view[index] = x` through `operator[]` of `VectorView<T>`
(a `const` member, so it is the same for a `const VectorView<T>` object). -/
def set (h : Heap T) (v : VectorView T Qual.mutable) (index : Nat) (x : T) :
    Option (Heap T) :=
  h.write (v.begin_.add index) x

end VectorView

/-- Backing storage a view is constructed from: a built-in array, or a
`Vector<T>` (whose view part is copied). -/
inductive Storage (T : Type) where
  | array (arr : FixedArray)
  | vector (a : Vector T Qual.mutable)

namespace Storage

/-- Reading `S[index]` directly: `array[index]` or `vector[index]`. -/
def get (h : Heap T) : Storage T → Nat → Option T
  | array arr, index => arr.get h index
  | vector a, index => a.get h index

/-- The elements of the storage, first to last. -/
def toList (h : Heap T) : Storage T → Option (List T)
  | array arr => h.readN arr.extent arr.begin
  | vector a => a.toList h

/-- The number of elements of the storage: `std::size(array)` or
`vector.size()`. -/
def size : Storage T → Option Nat
  | array arr => some arr.extent
  | vector a => a.size

/-- The view `VectorView<...> view{ S }`: the array constructor, or the copy
constructor applied to the view part of the vector (sliced to
`VectorView<const T>` for a read-only view). -/
def view (S : Storage T) (q : Qual) : VectorView T q :=
  match S, q with
  | array arr, _ => VectorView.ofArray arr
  | vector a, Qual.mutable => a.toVectorView
  | vector a, Qual.immutable => a.toVectorView.toConst

end Storage

/-- The array `int array[]{ 5, 7, 12 }` of the view tests, held in block `0`
of `test_heap`. -/
def test_array : FixedArray := ⟨0, 3⟩

/-! ## The conversion matrix: declared operations and overload resolution -/

/-- The class types of the matrix at one element type: `view q` is
`VectorView<T>` (`q` mutable) or `VectorView<const T>` (`q` immutable), and
`vector q` is `Vector<T>` or `Vector<const T>`. -/
inductive Kind where
  | view (q : Qual)
  | vector (q : Qual)
deriving DecidableEq, Repr

/-- The direct base class: `VectorView<T> : VectorView<const T>` and
`Vector<T> : VectorView<T>`. -/
def Kind.base : Kind → Option Kind
  | Kind.view Qual.immutable => none
  | Kind.view Qual.mutable => some (Kind.view Qual.immutable)
  | Kind.vector q => some (Kind.view q)

/-- Number of derivation steps from `d` up to `b`, looking at most `fuel` bases
up; `none` when `b` is neither `d` nor one of those bases. -/
def Kind.distance_within : Nat → Kind → Kind → Option Nat
  | 0, d, b => if d = b then some 0 else none
  | fuel + 1, d, b =>
    if d = b then some 0
    else
      match d.base with
      | none => none
      | some d1 => (Kind.distance_within fuel d1 b).map (· + 1)

/-- Number of derivation steps from `d` up to `b` (the longest chain,
`Vector<T>`, `VectorView<T>`, `VectorView<const T>`, has two). -/
def Kind.distance (d b : Kind) : Option Nat := Kind.distance_within 2 d b

/-- The source expression of an assignment: `std::declval<const S&>()` or
`std::declval<S&&>()`. -/
inductive Category where
  | const_lvalue
  | rvalue
deriving DecidableEq, Repr

/-- The parameter forms used by the header: `const K&` and `K&&`. -/
inductive RefKind where
  | const_lref
  | rref
deriving DecidableEq, Repr

/-- One declared constructor or assignment operator with a parameter of class
type: the parameter, whether it is `= delete`, and whether its
requires-clause (if any) holds. -/
structure Signature where
  param : Kind
  ref : RefKind
  deleted : Bool
  enabled : Bool
deriving DecidableEq, Repr

/-- The assignment operators each class declares (a derived class hides those
of its bases): lines 27, 30, 35, 37 for `VectorView<const T>`; 63, 66, 71, 73
for `VectorView<T>`; 113, 117, 119, 124, 133 for `Vector<T>`. -/
def assignment_operators : Kind → List Signature
  | Kind.view Qual.immutable =>
    [ ⟨Kind.view Qual.immutable, RefKind.const_lref, false, true⟩,
      ⟨Kind.view Qual.immutable, RefKind.rref, false, true⟩,
      ⟨Kind.vector Qual.immutable, RefKind.rref, true, true⟩,
      ⟨Kind.vector Qual.mutable, RefKind.rref, true, true⟩ ]
  | Kind.view Qual.mutable =>
    [ ⟨Kind.view Qual.mutable, RefKind.const_lref, false, true⟩,
      ⟨Kind.view Qual.mutable, RefKind.rref, false, true⟩,
      ⟨Kind.vector Qual.mutable, RefKind.rref, true, true⟩,
      ⟨Kind.vector Qual.immutable, RefKind.rref, true, true⟩ ]
  | Kind.vector q =>
    [ ⟨Kind.vector q, RefKind.const_lref, true, true⟩,
      ⟨Kind.view Qual.immutable, RefKind.const_lref, true, true⟩,
      ⟨Kind.view Qual.mutable, RefKind.const_lref, true, true⟩,
      ⟨Kind.vector q, RefKind.rref, false, true⟩,
      ⟨Kind.vector Qual.mutable, RefKind.rref, false, decide (q = Qual.immutable)⟩ ]

/-- The converting constructors each class declares: lines 26, 29, 34, 36 for
`VectorView<const T>`; 62, 65, 70, 72 for `VectorView<T>`; 112, 116, 118, 121,
130 for `Vector<T>`. -/
def converting_constructors : Kind → List Signature
  | Kind.view Qual.immutable =>
    [ ⟨Kind.view Qual.immutable, RefKind.const_lref, false, true⟩,
      ⟨Kind.view Qual.immutable, RefKind.rref, false, true⟩,
      ⟨Kind.vector Qual.immutable, RefKind.rref, true, true⟩,
      ⟨Kind.vector Qual.mutable, RefKind.rref, true, true⟩ ]
  | Kind.view Qual.mutable =>
    [ ⟨Kind.view Qual.mutable, RefKind.const_lref, false, true⟩,
      ⟨Kind.view Qual.mutable, RefKind.rref, false, true⟩,
      ⟨Kind.vector Qual.mutable, RefKind.rref, true, true⟩,
      ⟨Kind.vector Qual.immutable, RefKind.rref, true, true⟩ ]
  | Kind.vector q =>
    [ ⟨Kind.vector q, RefKind.const_lref, true, true⟩,
      ⟨Kind.view Qual.immutable, RefKind.const_lref, true, true⟩,
      ⟨Kind.view Qual.mutable, RefKind.const_lref, true, true⟩,
      ⟨Kind.vector q, RefKind.rref, false, true⟩,
      ⟨Kind.vector Qual.mutable, RefKind.rref, false, decide (q = Qual.immutable)⟩ ]

/-- An implicit conversion sequence from the source expression to a
parameter: a reference binding by identity or derived-to-base conversion
(with the number of derivation steps and whether an rvalue reference is
bound), or a user-defined conversion through a converting constructor
(ill-formed when that constructor is deleted or ambiguous). -/
inductive Conversion where
  | standard (steps : Nat) (binds_rvalue_ref : Bool)
  | user_defined (ill_formed : Bool)
deriving DecidableEq, Repr

/-- Ranking of conversion sequences: a standard one beats a user-defined one;
fewer derivation steps beat more; with equal steps, binding an rvalue
reference beats binding an lvalue reference; two user-defined ones through
different constructors are indistinguishable. -/
def Conversion.better : Conversion → Conversion → Bool
  | Conversion.standard d1 r1, Conversion.standard d2 r2 =>
    decide (d1 < d2) || (decide (d1 = d2) && r1 && !r2)
  | Conversion.standard _ _, Conversion.user_defined _ => true
  | Conversion.user_defined _, _ => false

/-- Direct reference binding of a parameter `const P&` or `P&&` to a source of
class `src`: possible when `src` is `P` or derived from it, except that an
rvalue reference does not bind to a const lvalue. -/
def bind_direct (param : Kind) (ref : RefKind) (src : Kind) (cat : Category) :
    Option Conversion :=
  match src.distance param with
  | none => none
  | some d =>
    match ref, cat with
    | RefKind.rref, Category.const_lvalue => none
    | RefKind.rref, Category.rvalue => some (Conversion.standard d true)
    | RefKind.const_lref, _ => some (Conversion.standard d false)

/-- The viable candidates of `candidates` for one argument, each with its
conversion sequence as computed by `conv`. -/
def viable (candidates : List Signature) (conv : Signature → Option Conversion) :
    List (Signature × Conversion) :=
  candidates.filterMap fun s =>
    if s.enabled then (conv s).map fun c => (s, c) else none

/-- The best viable candidates: those whose conversion is better than that of
every other viable candidate. -/
def best (vs : List (Signature × Conversion)) : List (Signature × Conversion) :=
  vs.filter fun c => vs.all fun c' => decide (c' = c) || c.2.better c'.2

/-- The implicit conversion sequence from the source to a parameter
`const P&` or `P&&`: the direct binding when the classes are related;
otherwise a temporary `P` is initialized from the source by the best
converting constructor of `P` (no second user-defined conversion), if one is
viable. -/
def conversion (param : Kind) (ref : RefKind) (src : Kind) (cat : Category) :
    Option Conversion :=
  match src.distance param with
  | some _ => bind_direct param ref src cat
  | none =>
    let vs := viable (converting_constructors param)
      (fun s => bind_direct s.param s.ref src cat)
    match vs, best vs with
    | [], _ => none
    | _ :: _, [c] => some (Conversion.user_defined c.1.deleted)
    | _ :: _, _ => some (Conversion.user_defined true)

/-- The trait `std::is_assignable_v<Target&, Source>`: overload resolution
over the assignment operators of the target selects one best viable
candidate, which is not deleted and whose conversion is well-formed. -/
def is_assignable (target source : Kind) (cat : Category) : Bool :=
  let vs := viable (assignment_operators target)
    (fun s => conversion s.param s.ref source cat)
  match best vs with
  | [c] =>
    !c.1.deleted &&
      (match c.2 with
        | Conversion.standard _ _ => true
        | Conversion.user_defined ill_formed => !ill_formed)
  | _ => false

/-- The `static_assert` matrix of `test.cpp` (lines 11 to 66): `true` for
`is_assignable_v` or `is_trivially_assignable_v`, `false` for
`!is_assignable_v`. -/
def static_assert_matrix : Kind → Kind → Category → Bool
  | Kind.view Qual.immutable, Kind.view Qual.immutable, Category.const_lvalue => true
  | Kind.view Qual.immutable, Kind.view Qual.mutable, Category.const_lvalue => true
  | Kind.view Qual.immutable, Kind.vector Qual.immutable, Category.const_lvalue => true
  | Kind.view Qual.immutable, Kind.vector Qual.mutable, Category.const_lvalue => true
  | Kind.view Qual.mutable, Kind.view Qual.immutable, Category.const_lvalue => false
  | Kind.view Qual.mutable, Kind.view Qual.mutable, Category.const_lvalue => true
  | Kind.view Qual.mutable, Kind.vector Qual.immutable, Category.const_lvalue => false
  | Kind.view Qual.mutable, Kind.vector Qual.mutable, Category.const_lvalue => true
  | Kind.vector Qual.immutable, Kind.view Qual.immutable, Category.const_lvalue => false
  | Kind.vector Qual.immutable, Kind.view Qual.mutable, Category.const_lvalue => false
  | Kind.vector Qual.immutable, Kind.vector Qual.immutable, Category.const_lvalue => false
  | Kind.vector Qual.immutable, Kind.vector Qual.mutable, Category.const_lvalue => false
  | Kind.vector Qual.mutable, Kind.view Qual.immutable, Category.const_lvalue => false
  | Kind.vector Qual.mutable, Kind.view Qual.mutable, Category.const_lvalue => false
  | Kind.vector Qual.mutable, Kind.vector Qual.immutable, Category.const_lvalue => false
  | Kind.vector Qual.mutable, Kind.vector Qual.mutable, Category.const_lvalue => false
  | Kind.view Qual.immutable, Kind.view Qual.immutable, Category.rvalue => true
  | Kind.view Qual.immutable, Kind.view Qual.mutable, Category.rvalue => true
  | Kind.view Qual.immutable, Kind.vector Qual.immutable, Category.rvalue => false
  | Kind.view Qual.immutable, Kind.vector Qual.mutable, Category.rvalue => false
  | Kind.view Qual.mutable, Kind.view Qual.immutable, Category.rvalue => false
  | Kind.view Qual.mutable, Kind.view Qual.mutable, Category.rvalue => true
  | Kind.view Qual.mutable, Kind.vector Qual.immutable, Category.rvalue => false
  | Kind.view Qual.mutable, Kind.vector Qual.mutable, Category.rvalue => false
  | Kind.vector Qual.immutable, Kind.view Qual.immutable, Category.rvalue => false
  | Kind.vector Qual.immutable, Kind.view Qual.mutable, Category.rvalue => false
  | Kind.vector Qual.immutable, Kind.vector Qual.immutable, Category.rvalue => true
  | Kind.vector Qual.immutable, Kind.vector Qual.mutable, Category.rvalue => true
  | Kind.vector Qual.mutable, Kind.view Qual.immutable, Category.rvalue => false
  | Kind.vector Qual.mutable, Kind.view Qual.mutable, Category.rvalue => false
  | Kind.vector Qual.mutable, Kind.vector Qual.immutable, Category.rvalue => false
  | Kind.vector Qual.mutable, Kind.vector Qual.mutable, Category.rvalue => true

/-- Mutability of the source is at least that of the target. -/
def at_least_as_mutable (source target : Qual) : Bool :=
  decide (target = Qual.immutable) || decide (source = Qual.mutable)

/-- The legality rule in the words of the specification: a view accepts any
view, or an lvalue owning array, of at least its mutability, and no
owning-array rvalue; an owning array accepts only an rvalue owning array of
the same or less element constness, never a copy and never a view. -/
def legal_by_capability (target source : Kind) (cat : Category) : Bool :=
  match target, source with
  | Kind.view tq, Kind.view sq => at_least_as_mutable sq tq
  | Kind.view tq, Kind.vector sq =>
    decide (cat = Category.const_lvalue) && at_least_as_mutable sq tq
  | Kind.vector _, Kind.view _ => false
  | Kind.vector tq, Kind.vector sq =>
    decide (cat = Category.rvalue) && at_least_as_mutable sq tq

/-! ## Programs over several owning arrays -/

/-- An owning array held by a program: a `Vector<const T>` or a `Vector<T>`. -/
inductive Obj (T : Type) where
  | const_vector (c : Vector T Qual.immutable)
  | mutable_vector (a : Vector T Qual.mutable)
deriving DecidableEq, Repr

namespace Obj

/-- The field `begin_` of the array. -/
def begin_ : Obj T → Ptr
  | const_vector c => c.begin_
  | mutable_vector a => a.begin_

/-- The field `end_` of the array. -/
def end_ : Obj T → Ptr
  | const_vector c => c.end_
  | mutable_vector a => a.end_

/-- The destructor of the array. -/
def destroy (h : Heap T) : Obj T → Option (Heap T)
  | const_vector c => c.destroy h
  | mutable_vector a => a.destroy h

end Obj

/-- A program state: the heap and the owning arrays in scope, by position. -/
structure World (T : Type) where
  heap : Heap T
  arrays : List (Obj T)
deriving DecidableEq, Repr

/-- The operations a program performs on its owning arrays. Positions refer
to `World.arrays`; constructions add an array at the end. -/
inductive Op (T : Type) where
  /-- The definition `Vector<T> v{}` or `Vector<const T> v{}`. -/
  | construct_default (q : Qual)
  /-- The definition `Vector<T> v(s, uninitialized_tag)`. -/
  | construct_uninitialized (s : Nat) (r : Alloc T)
  /-- The definition `Vector<T> v(s, value, initialized_tag)`. -/
  | construct_initialized (s : Nat) (value : T) (r : Alloc T)
  /-- The definition `Vector<T> v{ l... }`. -/
  | construct_list (l : List T) (r : Alloc T)
  /-- The definition `Vector<X> v{ std::move(arrays[src]) }`, same constness. -/
  | move_construct (src : Nat)
  /-- The assignment `arrays[dst] = std::move(arrays[src])`, same constness. -/
  | move_assign (dst src : Nat)
  /-- The definition `Vector<const T> v{ std::move(arrays[src]) }` from a `Vector<T>`. -/
  | move_construct_converting (src : Nat)
  /-- The assignment `arrays[dst] = std::move(arrays[src])` of a `Vector<T>`
  to a `Vector<const T>`. -/
  | move_assign_converting (dst src : Nat)
  /-- The call `arrays[i].resize(s, ...)` with the overload selected by `p`. -/
  | resize (i : Nat) (p : Policy T) (s : Nat) (r : Alloc T)

/-- Outcome of a constructor call on a world: the new array is added, or
`std::bad_alloc` leaves the world as it was; `none` is undefined behaviour. -/
def World.construct (w : World T)
    (res : Result (Heap T) (Heap T × Vector T Qual.mutable)) : Option (World T) :=
  match res with
  | Result.ok (h1, v) => some ⟨h1, w.arrays ++ [Obj.mutable_vector v]⟩
  | Result.bad_alloc h1 => some ⟨h1, w.arrays⟩
  | Result.undefined => none

/-- One operation. `none` when the operation does not apply (a position out of
range, or an element constness the overload does not accept) or when its
behaviour is undefined. -/
def World.step (w : World T) : Op T → Option (World T)
  | Op.construct_default Qual.immutable =>
    some ⟨w.heap, w.arrays ++ [Obj.const_vector Vector.default]⟩
  | Op.construct_default Qual.mutable =>
    some ⟨w.heap, w.arrays ++ [Obj.mutable_vector Vector.default]⟩
  | Op.construct_uninitialized s r => w.construct (Vector.uninitialized s r w.heap)
  | Op.construct_initialized s value r => w.construct (Vector.initialized s value r w.heap)
  | Op.construct_list l r => w.construct (Vector.ofList l r w.heap)
  | Op.move_construct src =>
    match w.arrays[src]? with
    | some (Obj.const_vector c) =>
      some ⟨w.heap, w.arrays.set src (Obj.const_vector (Vector.move c).2)
        ++ [Obj.const_vector (Vector.move c).1]⟩
    | some (Obj.mutable_vector a) =>
      some ⟨w.heap, w.arrays.set src (Obj.mutable_vector (Vector.move a).2)
        ++ [Obj.mutable_vector (Vector.move a).1]⟩
    | none => none
  | Op.move_assign dst src =>
    match w.arrays[dst]?, w.arrays[src]? with
    | some (Obj.const_vector d), some (Obj.const_vector c) =>
      some ⟨w.heap, (w.arrays.set src (Obj.const_vector (Vector.move_assign d c).2)).set dst
        (Obj.const_vector (Vector.move_assign d c).1)⟩
    | some (Obj.mutable_vector d), some (Obj.mutable_vector a) =>
      some ⟨w.heap, (w.arrays.set src (Obj.mutable_vector (Vector.move_assign d a).2)).set dst
        (Obj.mutable_vector (Vector.move_assign d a).1)⟩
    | _, _ => none
  | Op.move_construct_converting src =>
    match w.arrays[src]? with
    | some (Obj.mutable_vector a) =>
      some ⟨w.heap, w.arrays.set src (Obj.mutable_vector (Vector.move_converting a).2)
        ++ [Obj.const_vector (Vector.move_converting a).1]⟩
    | _ => none
  | Op.move_assign_converting dst src =>
    match w.arrays[dst]?, w.arrays[src]? with
    | some (Obj.const_vector d), some (Obj.mutable_vector a) =>
      some ⟨w.heap,
        (w.arrays.set src (Obj.mutable_vector (Vector.move_assign_converting d a).2)).set dst
          (Obj.const_vector (Vector.move_assign_converting d a).1)⟩
    | _, _ => none
  | Op.resize i p s r =>
    match w.arrays[i]? with
    | some (Obj.mutable_vector a) =>
      match Vector.resize p s r w.heap a with
      | Result.ok (h1, a1) => some ⟨h1, w.arrays.set i (Obj.mutable_vector a1)⟩
      | Result.bad_alloc (h1, a1) => some ⟨h1, w.arrays.set i (Obj.mutable_vector a1)⟩
      | Result.undefined => none
    | _ => none

/-- Whether an operation applies to a world: its positions are in range and
the arrays there have the element constness the overload accepts. -/
def World.applies (w : World T) : Op T → Bool
  | Op.construct_default _ => true
  | Op.construct_uninitialized _ _ => true
  | Op.construct_initialized _ _ _ => true
  | Op.construct_list _ _ => true
  | Op.move_construct src => (w.arrays[src]?).isSome
  | Op.move_assign dst src =>
    match w.arrays[dst]?, w.arrays[src]? with
    | some (Obj.const_vector _), some (Obj.const_vector _) => true
    | some (Obj.mutable_vector _), some (Obj.mutable_vector _) => true
    | _, _ => false
  | Op.move_construct_converting src =>
    match w.arrays[src]? with
    | some (Obj.mutable_vector _) => true
    | _ => false
  | Op.move_assign_converting dst src =>
    match w.arrays[dst]?, w.arrays[src]? with
    | some (Obj.const_vector _), some (Obj.mutable_vector _) => true
    | _, _ => false
  | Op.resize i _ _ _ =>
    match w.arrays[i]? with
    | some (Obj.mutable_vector _) => true
    | _ => false

/-- A sequence of operations, first to last. -/
def World.run (w : World T) : List (Op T) → Option (World T)
  | [] => some w
  | op :: ops =>
    match w.step op with
    | none => none
    | some w1 => World.run w1 ops

/-- Destroying the arrays one after the other. `none` when some `delete[]` is
undefined, as it is for a block already released. -/
def destroy_all (h : Heap T) : List (Obj T) → Option (Heap T)
  | [] => some h
  | o :: os =>
    match o.destroy h with
    | none => none
    | some h1 => destroy_all h1 os

/-- The extent of block `b` while it is live. -/
def Heap.extent (h : Heap T) (b : Nat) : Option Nat :=
  match h.blocks[b]? with
  | some (some cells) => some cells.length
  | _ => none

/-- An array is either empty (`begin_ = end_ = nullptr`) or spans exactly one
live block. -/
def Obj.Valid (h : Heap T) (o : Obj T) : Prop :=
  (o.begin_ = none ∧ o.end_ = none) ∨
    ∃ b n, o.begin_ = some ⟨b, 0⟩ ∧ o.end_ = some ⟨b, n⟩ ∧ h.extent b = some n

/-- No two arrays at different positions have the same non-null `begin_`. -/
def SingleOwner (l : List (Obj T)) : Prop :=
  ∀ (i j : Nat) (oi oj : Obj T), i ≠ j → l[i]? = some oi → l[j]? = some oj →
    oi.begin_ = oj.begin_ → oi.begin_ = none

/-- The invariant of a world: every array is valid and blocks have a single
owner. -/
def World.Inv (w : World T) : Prop :=
  (∀ (i : Nat) (o : Obj T), w.arrays[i]? = some o → o.Valid w.heap) ∧ SingleOwner w.arrays

/-- A small program: `a0{ 5, 7, 12 }`, `a1(2, 42, initialized_tag)`,
`a2{ move(a1) }`, `Vector<const int> a3{}`, `a3 = move(a2)`,
`a0.resize(5, 24)`, `a1 = move(a0)`, `a1 = move(a1)`,
`Vector<const int> a4{ move(a1) }`. -/
def test_ops : List (Op Int) :=
  [ Op.construct_list [5, 7, 12] (Alloc.ok test_junk),
    Op.construct_initialized 2 42 (Alloc.ok test_junk),
    Op.move_construct 1,
    Op.construct_default Qual.immutable,
    Op.move_assign_converting 3 2,
    Op.resize 0 (Policy.initialized 24) 5 (Alloc.ok test_junk),
    Op.move_assign 1 0,
    Op.move_assign 1 1,
    Op.move_construct_converting 1 ]

/-- The world `test_ops` ends in, started on the empty heap. -/
def test_world : World Int :=
  { heap := ⟨[some [5, 7, 12], some [42, 42], some [5, 7, 12, 24, 24]]⟩,
    arrays :=
      [ Obj.mutable_vector Vector.default,
        Obj.mutable_vector Vector.default,
        Obj.mutable_vector Vector.default,
        Obj.const_vector (Vector.ofMemory (some ⟨1, 0⟩) 2),
        Obj.const_vector (Vector.ofMemory (some ⟨2, 0⟩) 5) ] }

/-! ## Block-level facts about the heap primitives -/

/-- Block `b` of `h` is live and holds `cells`. -/
def Heap.Live (h : Heap T) (b : Nat) (cells : List T) : Prop :=
  h.blocks[b]? = some (some cells)

theorem list_set_self {α : Type} (l : List α) (b : Nat) (x : α) (hx : l[b]? = some x) :
    l.set b x = l := by
  apply List.ext_getElem?
  intro i
  rw [List.getElem?_set]
  by_cases hi : b = i
  · subst hi
    have hb : b < l.length := by
      rcases Nat.lt_or_ge b l.length with hlt | hge
      · exact hlt
      · rw [List.getElem?_eq_none hge] at hx
        cases hx
    simp [hb, hx]
  · simp [hi]

theorem Heap.Live.lt {h : Heap T} {b : Nat} {cells : List T} (hl : h.Live b cells) :
    b < h.blocks.length := by
  unfold Heap.Live at hl
  rcases Nat.lt_or_ge b h.blocks.length with hlt | hge
  · exact hlt
  · rw [List.getElem?_eq_none hge] at hl
    cases hl

theorem Heap.Live.unique {h : Heap T} {b : Nat} {c1 c2 : List T}
    (h1 : h.Live b c1) (h2 : h.Live b c2) : c1 = c2 := by
  unfold Heap.Live at h1 h2
  rw [h1] at h2
  simpa using h2

theorem Heap.live_set_same (h : Heap T) (b : Nat) (x : List T) (hb : b < h.blocks.length) :
    Heap.Live ⟨h.blocks.set b (some x)⟩ b x := by
  unfold Heap.Live
  simp [List.getElem?_set, hb]

theorem Heap.live_set_other (h : Heap T) (a b : Nat) (x : Option (List T)) (cells : List T)
    (hab : a ≠ b) (hl : h.Live a cells) : Heap.Live ⟨h.blocks.set b x⟩ a cells := by
  unfold Heap.Live at *
  simp only
  rw [List.getElem?_set_ne (Ne.symm hab)]
  exact hl

theorem Heap.read_live {h : Heap T} {b : Nat} {cells : List T} (hl : h.Live b cells) (o : Nat) :
    h.read (some ⟨b, o⟩) = cells[o]? := by
  unfold Heap.Live at hl
  simp [Heap.read, hl]

theorem Heap.write_live {h : Heap T} {b : Nat} {cells : List T} (hl : h.Live b cells) (o : Nat)
    (ho : o < cells.length) (x : T) :
    h.write (some ⟨b, o⟩) x = some ⟨h.blocks.set b (some (cells.set o x))⟩ := by
  unfold Heap.Live at hl
  simp [Heap.write, hl, ho]

theorem Heap.readN_live {h : Heap T} {b : Nat} {cells : List T} (hl : h.Live b cells) :
    ∀ (k o : Nat), o + k ≤ cells.length →
      h.readN k (some ⟨b, o⟩) = some ((cells.drop o).take k) := by
  intro k
  induction k with
  | zero => intro o _; simp [Heap.readN]
  | succ k ih =>
    intro o ho
    have hlt : o < cells.length := by omega
    have hstep := ih (o + 1) (by omega)
    simp only [Ptr.add] at *
    rw [Heap.readN, Heap.read_live hl, List.getElem?_eq_getElem hlt]
    simp only [Ptr.add]
    rw [hstep, List.drop_eq_getElem_cons hlt, List.take_succ_cons]

theorem Heap.readN_length (h : Heap T) :
    ∀ (k : Nat) (p : Ptr) (l : List T), h.readN k p = some l → l.length = k := by
  intro k
  induction k with
  | zero => intro p l hl; simp [Heap.readN] at hl; simp [← hl]
  | succ k ih =>
    intro p l hl
    rw [Heap.readN] at hl
    cases hx : h.read p with
    | none => simp [hx] at hl
    | some x =>
      cases hr : h.readN k (p.add 1) with
      | none => simp [hx, hr] at hl
      | some xs =>
        simp [hx, hr] at hl
        rw [← hl]
        simp [ih _ _ hr]

theorem Heap.read_some_inv {h : Heap T} {p : Ptr} {x : T} (hx : h.read p = some x) :
    ∃ b o cells, p = some ⟨b, o⟩ ∧ h.Live b cells ∧ o < cells.length ∧ cells[o]? = some x := by
  cases p with
  | none => simp [Heap.read] at hx
  | some a =>
    obtain ⟨b, o⟩ := a
    simp only [Heap.read] at hx
    cases hb : h.blocks[b]? with
    | none => simp [hb] at hx
    | some ob =>
      cases ob with
      | none => simp [hb] at hx
      | some cells =>
        simp only [hb] at hx
        refine ⟨b, o, cells, rfl, hb, ?_, hx⟩
        rcases Nat.lt_or_ge o cells.length with hlt | hge
        · exact hlt
        · rw [List.getElem?_eq_none hge] at hx
          cases hx

/-- Reading `k > 0` cells succeeds only inside one live block. -/
theorem Heap.readN_inv (h : Heap T) :
    ∀ (k : Nat) (p : Ptr) (l : List T), h.readN (k + 1) p = some l →
      ∃ b o cells, p = some ⟨b, o⟩ ∧ h.Live b cells ∧ o + (k + 1) ≤ cells.length ∧
        l = (cells.drop o).take (k + 1) := by
  intro k
  induction k with
  | zero =>
    intro p l hl
    have hl0 := hl
    rw [Heap.readN] at hl
    cases hx : h.read p with
    | none => simp [hx] at hl
    | some x =>
      obtain ⟨b, o, cells, hp, hlive, hlt, hget⟩ := Heap.read_some_inv hx
      refine ⟨b, o, cells, hp, hlive, by omega, ?_⟩
      rw [hp, Heap.readN_live hlive 1 o (by omega)] at hl0
      exact (Option.some.inj hl0).symm
  | succ k ih =>
    intro p l hl
    have hl0 := hl
    rw [Heap.readN] at hl
    cases hx : h.read p with
    | none => simp [hx] at hl
    | some x =>
      cases hr : h.readN (k + 1) (p.add 1) with
      | none => simp [hx, hr] at hl
      | some xs =>
        obtain ⟨b, o, cells, hp, hlive, hlt, hget⟩ := Heap.read_some_inv hx
        obtain ⟨b2, o2, cells2, hp2, hlive2, hle2, _⟩ := ih _ _ hr
        subst hp
        simp only [Ptr.add, Option.some.injEq, Addr.mk.injEq] at hp2
        obtain ⟨hb, ho⟩ := hp2
        subst hb ho
        have hc := Heap.Live.unique hlive hlive2
        subst hc
        refine ⟨b, o, cells, rfl, hlive, by omega, ?_⟩
        rw [Heap.readN_live hlive (k + 1 + 1) o (by omega)] at hl0
        exact (Option.some.inj hl0).symm

theorem list_take_set_succ {α : Type} (l : List α) (o : Nat) (x : α) (ho : o < l.length) :
    (l.set o x).take (o + 1) = l.take o ++ [x] := by
  induction l generalizing o with
  | nil => simp at ho
  | cons y ys ih =>
    cases o with
    | zero => simp
    | succ o =>
      simp only [List.length_cons, Nat.add_lt_add_iff_right] at ho
      simp [ih o ho]

theorem list_drop_set_succ {α : Type} (l : List α) (o k : Nat) (x : α) :
    (l.set o x).drop (o + 1 + k) = l.drop (o + 1 + k) := by
  induction l generalizing o with
  | nil => simp
  | cons y ys ih =>
    cases o with
    | zero => simp [Nat.add_comm 1 k]
    | succ o =>
      have h1 : o + 1 + 1 + k = (o + 1 + k) + 1 := by omega
      rw [h1]
      simp [ih o]

theorem fill_n_live (b : Nat) (v : T) :
    ∀ (k : Nat) (h : Heap T) (o : Nat) (cells : List T), h.Live b cells →
      o + k ≤ cells.length →
      fill_n v k h (some ⟨b, o⟩) =
        some ⟨h.blocks.set b (some (cells.take o ++ List.replicate k v ++ cells.drop (o + k)))⟩ := by
  intro k
  induction k with
  | zero =>
    intro h o cells hl _
    simp only [fill_n, List.replicate_zero, List.append_nil, Nat.add_zero,
      List.take_append_drop]
    rw [list_set_self _ _ _ hl]
  | succ k ih =>
    intro h o cells hl ho
    have hlt : o < cells.length := by omega
    rw [fill_n, Heap.write_live hl o hlt]
    simp only [Ptr.add]
    have hl1 := Heap.live_set_same h b (cells.set o v) hl.lt
    rw [ih _ (o + 1) (cells.set o v) hl1 (by simp; omega)]
    simp only [List.set_set, list_take_set_succ cells o v hlt, list_drop_set_succ]
    have e1 : o + (k + 1) = o + 1 + k := by omega
    rw [e1, List.replicate_succ]
    simp

theorem copy_n_live (a b : Nat) (hab : a ≠ b) (ca : List T) :
    ∀ (k : Nat) (h : Heap T) (oa ob : Nat) (cb : List T), h.Live a ca → h.Live b cb →
      oa + k ≤ ca.length → ob + k ≤ cb.length →
      copy_n k h (some ⟨a, oa⟩) (some ⟨b, ob⟩) =
        some (⟨h.blocks.set b (some (cb.take ob ++ (ca.drop oa).take k ++ cb.drop (ob + k)))⟩,
          some ⟨b, ob + k⟩) := by
  intro k
  induction k with
  | zero =>
    intro h oa ob cb _ hlb _ _
    simp only [copy_n, List.take_zero, List.append_nil, Nat.add_zero, List.take_append_drop]
    rw [list_set_self _ _ _ hlb]
  | succ k ih =>
    intro h oa ob cb hla hlb hoa hob
    have hlta : oa < ca.length := by omega
    have hltb : ob < cb.length := by omega
    rw [copy_n, Heap.read_live hla, List.getElem?_eq_getElem hlta]
    simp only
    rw [Heap.write_live hlb ob hltb]
    simp only [Ptr.add]
    have hla1 := Heap.live_set_other h a b (some (cb.set ob ca[oa])) ca hab hla
    have hlb1 := Heap.live_set_same h b (cb.set ob ca[oa]) hlb.lt
    rw [ih _ (oa + 1) (ob + 1) (cb.set ob ca[oa]) hla1 hlb1 (by omega) (by simp; omega)]
    simp only [List.set_set, list_take_set_succ cb ob _ hltb, list_drop_set_succ]
    have e1 : ob + (k + 1) = ob + 1 + k := by omega
    rw [e1, List.drop_eq_getElem_cons hlta, List.take_succ_cons]
    simp

/-! ## Fresh blocks and vectors over them -/

theorem Heap.live_append {h : Heap T} {a : Nat} {cells : List T} (x : Option (List T))
    (hl : h.Live a cells) : Heap.Live ⟨h.blocks ++ [x]⟩ a cells := by
  have hlt := hl.lt
  unfold Heap.Live at *
  simp only
  rw [List.getElem?_append_left hlt]
  exact hl

theorem Heap.live_append_new (h : Heap T) (cells : List T) :
    Heap.Live ⟨h.blocks ++ [some cells]⟩ h.blocks.length cells := by
  unfold Heap.Live
  simp

theorem list_take_min {α : Type} (l : List α) (s : Nat) :
    l.take (min s l.length) = l.take s := by
  rcases Nat.le_total s l.length with hle | hge
  · rw [Nat.min_eq_left hle]
  · rw [Nat.min_eq_right hge, List.take_of_length_le (Nat.le_refl _),
      List.take_of_length_le hge]

theorem list_set_append_last {α : Type} (l : List α) (x y : α) :
    (l ++ [x]).set l.length y = l ++ [y] := by
  induction l with
  | nil => simp
  | cons z zs ih => simp [ih]

namespace Vector

theorem toList_inv {q : Qual} {h : Heap T} {a : Vector T q} {old : List T}
    (hold : a.toList h = some old) :
    a.size = some old.length ∧ h.readN old.length a.begin_ = some old := by
  unfold Vector.toList VectorView.toList at hold
  unfold Vector.size
  cases hs : a.toVectorView.size with
  | none => simp [hs] at hold
  | some n =>
    simp only [hs, VectorView.begin] at hold
    have hlen := Heap.readN_length h _ _ _ hold
    subst hlen
    exact ⟨rfl, hold⟩

theorem size_ofMemory {q : Qual} (b n : Nat) :
    (ofMemory (some ⟨b, 0⟩) n : Vector T q).size = some n := by
  simp [Vector.size, VectorView.size, VectorView.begin, VectorView.«end», ofMemory, Ptr.add,
    Ptr.diff]

theorem get_ofMemory {q : Qual} {h : Heap T} {b : Nat} {cells : List T} (hl : h.Live b cells)
    (n i : Nat) : (ofMemory (some ⟨b, 0⟩) n : Vector T q).get h i = cells[i]? := by
  simp [Vector.get, VectorView.get, ofMemory, Ptr.add, Heap.read_live hl]

theorem toList_ofMemory {q : Qual} {h : Heap T} {b : Nat} {cells : List T}
    (hl : h.Live b cells) : (ofMemory (some ⟨b, 0⟩) cells.length : Vector T q).toList h
      = some cells := by
  unfold Vector.toList VectorView.toList
  have hs := size_ofMemory (T := T) (q := q) b cells.length
  unfold Vector.size at hs
  rw [hs]
  simp only [VectorView.begin, ofMemory]
  rw [Heap.readN_live hl cells.length 0 (by omega)]
  simp

/-- Copying a prefix of a readable vector into a fresh block appended to the heap. -/
theorem copy_n_fresh {q : Qual} {h : Heap T} {a : Vector T q} {old : List T}
    (hold : a.toList h = some old) (k : Nat) (hk : k ≤ old.length) (cb : List T)
    (hcb : k ≤ cb.length) :
    copy_n k ⟨h.blocks ++ [some cb]⟩ a.begin_ (some ⟨h.blocks.length, 0⟩) =
      some (⟨h.blocks ++ [some (old.take k ++ cb.drop k)]⟩, some ⟨h.blocks.length, k⟩) := by
  obtain ⟨_, hread⟩ := toList_inv hold
  cases k with
  | zero => simp [copy_n]
  | succ k =>
    cases hm : old.length with
    | zero => omega
    | succ m =>
      rw [hm] at hread
      obtain ⟨b, o, cells, hp, hlive, hle, hl⟩ := Heap.readN_inv h m _ _ hread
      have hne : b ≠ h.blocks.length := Nat.ne_of_lt hlive.lt
      rw [hp, copy_n_live b h.blocks.length hne cells (k + 1) _ o 0 cb
        (Heap.live_append _ hlive) (Heap.live_append_new h cb) (by omega) (by omega)]
      simp only [list_set_append_last, List.take_zero, List.nil_append, Nat.zero_add]
      rw [hl, List.take_take, Nat.min_eq_left (by omega)]

end Vector

/-! ## What each `resize` overload computes -/

namespace Vector

theorem uninitialized_ok (s : Nat) (junk : Nat → T) (h : Heap T) :
    uninitialized s (Alloc.ok junk) h =
      Result.ok (⟨h.blocks ++ [some ((List.range s).map junk)]⟩,
        ofMemory (some ⟨h.blocks.length, 0⟩) s) := rfl

theorem uninitialized_fail (s : Nat) (h : Heap T) :
    uninitialized s Alloc.fail h = Result.bad_alloc h := rfl

theorem move_assign_destroy (h : Heap T) (this new_vector : Vector T Qual.mutable) :
    (move_assign this new_vector).1 = new_vector ∧
      destroy h (move_assign this new_vector).2 = some h := by
  constructor
  · rfl
  · rfl

/-- A size-changing `resize(s, non_preserving_uninitialized_tag)` appends a
fresh block holding the allocator's content and points the vector at it. -/
theorem resize_non_preserving_uninitialized_ne (s : Nat) (junk : Nat → T) (h : Heap T)
    (a : Vector T Qual.mutable) (m : Nat) (hs : a.size = some m) (hne : m ≠ s) :
    resize_non_preserving_uninitialized s (Alloc.ok junk) h a =
      Result.ok (⟨h.blocks ++ [some ((List.range s).map junk)]⟩,
        ofMemory (some ⟨h.blocks.length, 0⟩) s) := by
  unfold resize_non_preserving_uninitialized
  rw [hs]
  simp only [hne, ne_eq, not_false_eq_true, if_true, uninitialized_ok]
  rfl

/-- A size-changing `resize(s, value, non_preserving_initialized_tag)`. -/
theorem resize_non_preserving_initialized_ne (s : Nat) (v : T) (junk : Nat → T) (h : Heap T)
    (a : Vector T Qual.mutable) (m : Nat) (hs : a.size = some m) (hne : m ≠ s) :
    resize_non_preserving_initialized s v (Alloc.ok junk) h a =
      Result.ok (⟨h.blocks ++ [some (List.replicate s v)]⟩,
        ofMemory (some ⟨h.blocks.length, 0⟩) s) := by
  unfold resize_non_preserving_initialized
  rw [resize_non_preserving_uninitialized_ne s junk h a m hs hne]
  simp only [fill, VectorView.begin, VectorView.«end», ofMemory, Ptr.add, Ptr.diff]
  simp only [Nat.zero_add, and_self, Nat.zero_le, if_true, Nat.sub_zero, le_refl]
  rw [fill_n_live h.blocks.length v s _ 0 _ (Heap.live_append_new h _) (by simp)]
  simp [list_set_append_last]

/-- A size-changing `resize(s, uninitialized_tag)`. -/
theorem resize_uninitialized_ne (s : Nat) (junk : Nat → T) (h : Heap T)
    (a : Vector T Qual.mutable) (old : List T) (hold : a.toList h = some old)
    (hne : old.length ≠ s) :
    resize_uninitialized s (Alloc.ok junk) h a =
      Result.ok (⟨h.blocks ++ [some (old.take s ++
          ((List.range s).map junk).drop (min s old.length))]⟩,
        ofMemory (some ⟨h.blocks.length, 0⟩) s) := by
  obtain ⟨hs, _⟩ := toList_inv hold
  unfold resize_uninitialized
  rw [hs]
  simp only [hne, ne_eq, not_false_eq_true, if_true, uninitialized_ok]
  have hc := copy_n_fresh hold (min s old.length) (Nat.min_le_right _ _)
    ((List.range s).map junk) (by simp)
  simp only [VectorView.begin, ofMemory]
  rw [hc]
  rw [list_take_min]
  rfl

/-- A size-changing `resize(s, value, initialized_tag)`. -/
theorem resize_initialized_ne (s : Nat) (v : T) (junk : Nat → T) (h : Heap T)
    (a : Vector T Qual.mutable) (old : List T) (hold : a.toList h = some old)
    (hne : old.length ≠ s) :
    resize_initialized s v (Alloc.ok junk) h a =
      Result.ok (⟨h.blocks ++ [some (old.take s ++ List.replicate (s - old.length) v)]⟩,
        ofMemory (some ⟨h.blocks.length, 0⟩) s) := by
  obtain ⟨hs, _⟩ := toList_inv hold
  unfold resize_initialized
  rw [hs]
  simp only [hne, ne_eq, not_false_eq_true, if_true, uninitialized_ok]
  have hc := copy_n_fresh hold (min s old.length) (Nat.min_le_right _ _)
    ((List.range s).map junk) (by simp)
  simp only [VectorView.begin, ofMemory]
  rw [hc]
  simp only [fill, VectorView.«end», Ptr.add, Ptr.diff]
  simp only [Nat.zero_add, true_and, Nat.min_le_left, if_true]
  have hlen : (List.take (min s old.length) old ++
      List.drop (min s old.length) ((List.range s).map junk)).length = s := by
    simp only [List.length_append, List.length_take, List.length_drop, List.length_map,
      List.length_range]
    omega
  have hlive := Heap.live_append_new h (List.take (min s old.length) old ++
      List.drop (min s old.length) ((List.range s).map junk))
  rw [fill_n_live h.blocks.length v _ _ _ _ hlive (by rw [hlen]; omega)]
  simp only [list_set_append_last]
  have ht : List.take (min s old.length) old = List.take s old := list_take_min old s
  have hd : min s old.length + (s - min s old.length) = s := by omega
  have hr : s - min s old.length = s - old.length := by omega
  have hlt : (List.take (min s old.length) old).length = min s old.length := by
    simp
  rw [List.take_append_of_le_length (by omega), List.take_of_length_le (by omega), hd,
    List.drop_of_length_le (by omega), ht, hr]
  simp only [List.append_nil]
  rfl

end Vector

namespace Vector

theorem get_of_toList {q : Qual} {h : Heap T} {a : Vector T q} {old : List T}
    (hold : a.toList h = some old) (i : Nat) (hi : i < old.length) :
    a.get h i = old[i]? := by
  obtain ⟨_, hread⟩ := toList_inv hold
  cases hm : old.length with
  | zero => omega
  | succ m =>
    rw [hm] at hread
    obtain ⟨b, o, cells, hp, hlive, hle, hl⟩ := Heap.readN_inv h m _ _ hread
    unfold Vector.get VectorView.get
    rw [hp]
    simp only [Ptr.add]
    rw [Heap.read_live hlive, hl, List.getElem?_take_of_lt (by omega), List.getElem?_drop]

theorem diff_some_inv {e : Ptr} {b o m : Nat} (hd : Ptr.diff e (some ⟨b, o⟩) = some m) :
    e = some ⟨b, o + m⟩ := by
  cases e with
  | none => simp [Ptr.diff] at hd
  | some x =>
    obtain ⟨eb, eo⟩ := x
    simp only [Ptr.diff] at hd
    split at hd
    · rename_i hc
      obtain ⟨h1, h2⟩ := hc
      simp only [Option.some.injEq] at hd
      simp only [Option.some.injEq, Addr.mk.injEq]
      constructor
      · exact h1
      · omega
    · cases hd

theorem resize_uninitialized_eq (s : Nat) (r : Alloc T) (h : Heap T)
    (a : Vector T Qual.mutable) (hs : a.size = some s) :
    resize_uninitialized s r h a = Result.ok (h, a) := by
  unfold resize_uninitialized
  rw [hs]
  simp

theorem resize_initialized_eq (s : Nat) (v : T) (r : Alloc T) (h : Heap T)
    (a : Vector T Qual.mutable) (hs : a.size = some s) :
    resize_initialized s v r h a = Result.ok (h, a) := by
  unfold resize_initialized
  rw [hs]
  simp

theorem resize_non_preserving_uninitialized_eq (s : Nat) (r : Alloc T) (h : Heap T)
    (a : Vector T Qual.mutable) (hs : a.size = some s) :
    resize_non_preserving_uninitialized s r h a = Result.ok (h, a) := by
  unfold resize_non_preserving_uninitialized
  rw [hs]
  simp

/-- With an unchanged size, `resize(s, value, non_preserving_initialized_tag)`
keeps the block and overwrites every element with `value`. -/
theorem resize_non_preserving_initialized_eq (v : T) (r : Alloc T) (h : Heap T)
    (a : Vector T Qual.mutable) (old : List T) (hold : a.toList h = some old) :
    ∃ h', resize_non_preserving_initialized old.length v r h a = Result.ok (h', a) ∧
      a.toList h' = some (List.replicate old.length v) := by
  obtain ⟨hs, hread⟩ := toList_inv hold
  unfold resize_non_preserving_initialized
  rw [resize_non_preserving_uninitialized_eq _ r h a hs]
  simp only
  have hs0 := hs
  unfold Vector.size VectorView.size at hs
  unfold fill
  rw [hs]
  simp only [VectorView.begin]
  cases hm : old.length with
  | zero =>
    refine ⟨h, by simp [fill_n], ?_⟩
    rw [hold]
    have : old = [] := List.length_eq_zero.mp hm
    simp [this]
  | succ m =>
    rw [hm] at hread
    obtain ⟨b, o, cells, hp, hlive, hle, hl⟩ := Heap.readN_inv h m _ _ hread
    rw [hp, fill_n_live b v (m + 1) h o cells hlive hle]
    refine ⟨_, rfl, ?_⟩
    have hsv : a.toVectorView.size = some old.length := hs0
    unfold Vector.toList VectorView.toList
    rw [hsv, hm]
    simp only [VectorView.begin]
    rw [hp]
    have hl2 := Heap.live_set_same h b
      (List.take o cells ++ List.replicate (m + 1) v ++ List.drop (o + (m + 1)) cells) hlive.lt
    rw [Heap.readN_live hl2 (m + 1) o (by simp; omega)]
    have hto : (List.take o cells).length = o := by simp; omega
    rw [List.append_assoc, List.drop_append_of_le_length (by omega),
      List.drop_of_length_le (by omega), List.nil_append,
      List.take_append_of_le_length (by simp), List.take_of_length_le (by simp)]

end Vector

/-! ## The `VectorResize` test, replayed -/

/-- The embedding reproduces the `VectorResize` test: starting from
`vector{ 5, 7, 12 }`, `resize(5, 24)`, `resize(6)`, `resize(4)`,
`resize(2, 127)` and `resize(4, 87, non_preserving_initialized_tag)` give the
sizes and elements the test asserts. -/
theorem test_VectorResize_replay :
    Vector.resize (Policy.initialized 24) 5 (Alloc.ok test_junk) test_heap test_vector
      = Result.ok (⟨[some [5, 7, 12], some [5, 7, 12, 24, 24]]⟩,
          Vector.ofMemory (some ⟨1, 0⟩) 5) ∧
    Vector.resize Policy.uninitialized 6 (Alloc.ok test_junk)
        ⟨[some [5, 7, 12], some [5, 7, 12, 24, 24]]⟩ (Vector.ofMemory (some ⟨1, 0⟩) 5)
      = Result.ok (⟨[some [5, 7, 12], some [5, 7, 12, 24, 24],
            some [5, 7, 12, 24, 24, -1]]⟩, Vector.ofMemory (some ⟨2, 0⟩) 6) ∧
    Vector.resize Policy.uninitialized 4 (Alloc.ok test_junk)
        ⟨[some [5, 7, 12], some [5, 7, 12, 24, 24], some [5, 7, 12, 24, 24, -1]]⟩
        (Vector.ofMemory (some ⟨2, 0⟩) 6)
      = Result.ok (⟨[some [5, 7, 12], some [5, 7, 12, 24, 24],
            some [5, 7, 12, 24, 24, -1], some [5, 7, 12, 24]]⟩,
          Vector.ofMemory (some ⟨3, 0⟩) 4) ∧
    Vector.resize (Policy.initialized 127) 2 (Alloc.ok test_junk)
        ⟨[some [5, 7, 12], some [5, 7, 12, 24, 24], some [5, 7, 12, 24, 24, -1],
          some [5, 7, 12, 24]]⟩ (Vector.ofMemory (some ⟨3, 0⟩) 4)
      = Result.ok (⟨[some [5, 7, 12], some [5, 7, 12, 24, 24],
            some [5, 7, 12, 24, 24, -1], some [5, 7, 12, 24], some [5, 7]]⟩,
          Vector.ofMemory (some ⟨4, 0⟩) 2) ∧
    Vector.resize (Policy.non_preserving_initialized 87) 4 (Alloc.ok test_junk)
        ⟨[some [5, 7, 12], some [5, 7, 12, 24, 24], some [5, 7, 12, 24, 24, -1],
          some [5, 7, 12, 24], some [5, 7]]⟩ (Vector.ofMemory (some ⟨4, 0⟩) 2)
      = Result.ok (⟨[some [5, 7, 12], some [5, 7, 12, 24, 24],
            some [5, 7, 12, 24, 24, -1], some [5, 7, 12, 24], some [5, 7],
            some [87, 87, 87, 87]]⟩, Vector.ofMemory (some ⟨5, 0⟩) 4) := by
  decide

/-! ## The resize laws -/

namespace Vector

/-- C1 (as stated, refuted): on `vector{ 5, 7, 12 }` the call
`resize(3, 87, non_preserving_initialized_tag)` keeps the size but overwrites
every element with `87`, so a same-size resize is not a no-op under all four
policies. -/
theorem resize_same_size_overwrites_example :
    ofList [5, 7, 12] (Alloc.ok test_junk) Heap.empty = Result.ok (test_heap, test_vector) ∧
    test_vector.size = some 3 ∧
    test_vector.toList test_heap = some [5, 7, 12] ∧
    resize (Policy.non_preserving_initialized 87) 3 (Alloc.ok test_junk) test_heap test_vector
      = Result.ok (⟨[some [87, 87, 87]]⟩, test_vector) ∧
    test_vector.toList ⟨[some [87, 87, 87]]⟩ = some [87, 87, 87] ∧
    test_vector.get ⟨[some [87, 87, 87]]⟩ 0 ≠ test_vector.get test_heap 0 := by
  decide

/-- C1 (amended): for a vector whose elements are `old`, a resize to the
current size `old.length` under `uninitialized`, `initialized(v)` or
`non_preserving_uninitialized` returns with the heap and the vector exactly as
they were (every element unchanged, whatever the allocator would answer);
under `non_preserving_initialized(v)` the vector keeps its block and size and
every element becomes `v`. -/
theorem resize_same_size (h : Heap T) (a : Vector T Qual.mutable) (old : List T) (v : T)
    (r : Alloc T) (hold : a.toList h = some old) :
    resize Policy.uninitialized old.length r h a = Result.ok (h, a) ∧
    resize (Policy.initialized v) old.length r h a = Result.ok (h, a) ∧
    resize Policy.non_preserving_uninitialized old.length r h a = Result.ok (h, a) ∧
    ∃ h', resize (Policy.non_preserving_initialized v) old.length r h a = Result.ok (h', a) ∧
      a.toList h' = some (List.replicate old.length v) := by
  obtain ⟨hs, _⟩ := toList_inv hold
  exact ⟨resize_uninitialized_eq _ r h a hs, resize_initialized_eq _ v r h a hs,
    resize_non_preserving_uninitialized_eq _ r h a hs,
    resize_non_preserving_initialized_eq v r h a old hold⟩

/-- Witness of `resize_same_size` on `vector{ 5, 7, 12 }`. -/
theorem resize_same_size_witness :
    test_vector.toList test_heap = some [5, 7, 12] ∧
    resize Policy.uninitialized 3 Alloc.fail test_heap test_vector
      = Result.ok (test_heap, test_vector) ∧
    resize (Policy.initialized 9) 3 Alloc.fail test_heap test_vector
      = Result.ok (test_heap, test_vector) ∧
    resize Policy.non_preserving_uninitialized 3 Alloc.fail test_heap test_vector
      = Result.ok (test_heap, test_vector) ∧
    ∃ h', resize (Policy.non_preserving_initialized 9) 3 Alloc.fail test_heap test_vector
        = Result.ok (h', test_vector) ∧
      test_vector.toList h' = some [9, 9, 9] :=
  ⟨by decide, resize_same_size test_heap test_vector [5, 7, 12] 9 Alloc.fail (by decide)⟩

/-- C2: for a vector whose elements are `old`, after `resize(n, v)` (initialized
policy, allocation succeeding) the size is `n` and the elements are the first
`min old.length n` elements of `old` followed by `n - old.length` copies of
`v`; when `n ≤ old.length` they are exactly the first `n` elements of `old`. -/
theorem resize_initialized_contents (h : Heap T) (a : Vector T Qual.mutable) (old : List T)
    (n : Nat) (v : T) (junk : Nat → T) (hold : a.toList h = some old) :
    ∃ h' a', resize (Policy.initialized v) n (Alloc.ok junk) h a = Result.ok (h', a') ∧
      a'.size = some n ∧
      a'.toList h' =
        some (old.take (min old.length n) ++ List.replicate (n - old.length) v) ∧
      (n ≤ old.length → a'.toList h' = some (old.take n)) := by
  obtain ⟨hs, _⟩ := toList_inv hold
  have hmin : old.take (min old.length n) = old.take n := by
    rw [Nat.min_comm]; exact list_take_min old n
  by_cases hn : old.length = n
  · subst hn
    refine ⟨h, a, resize_initialized_eq _ v (Alloc.ok junk) h a hs, hs, ?_, ?_⟩
    · simp [hold]
    · intro _; simp [hold]
  · have hlen : (old.take n ++ List.replicate (n - old.length) v).length = n := by
      simp only [List.length_append, List.length_take, List.length_replicate]; omega
    have hlive := Heap.live_append_new h (old.take n ++ List.replicate (n - old.length) v)
    have htl := toList_ofMemory (q := Qual.mutable) hlive
    rw [hlen] at htl
    refine ⟨_, _, resize_initialized_ne n v junk h a old hold hn, size_ofMemory _ _, ?_, ?_⟩
    · rw [htl, hmin]
    · intro hle
      rw [htl, Nat.sub_eq_zero_of_le hle]
      simp

/-- Witness of `resize_initialized_contents`: `vector{ 5, 7, 12 }` grown by
`resize(5, 24)`. -/
theorem resize_initialized_contents_witness :
    test_vector.toList test_heap = some [5, 7, 12] ∧
    ∃ h' a', resize (Policy.initialized 24) 5 (Alloc.ok test_junk) test_heap test_vector
        = Result.ok (h', a') ∧
      a'.size = some 5 ∧
      a'.toList h' = some ([5, 7, 12] ++ [24, 24]) ∧
      (5 ≤ 3 → a'.toList h' = some [5, 7, 12]) :=
  ⟨by decide,
    resize_initialized_contents test_heap test_vector [5, 7, 12] 5 24 test_junk (by decide)⟩

/-- C3: for a vector whose elements are `old`, after `resize(n)` (uninitialized
policy, allocation succeeding with any indeterminate content `junk`) element
`i` equals the old element `i` for every `i < min old.length n`. -/
theorem resize_uninitialized_preserves (h : Heap T) (a : Vector T Qual.mutable)
    (old : List T) (n : Nat) (junk : Nat → T) (hold : a.toList h = some old) :
    ∃ h' a', resize Policy.uninitialized n (Alloc.ok junk) h a = Result.ok (h', a') ∧
      ∀ i, i < min old.length n → a'.get h' i = a.get h i ∧ a.get h i = old[i]? := by
  obtain ⟨hs, _⟩ := toList_inv hold
  by_cases hn : old.length = n
  · subst hn
    refine ⟨h, a, resize_uninitialized_eq _ (Alloc.ok junk) h a hs, ?_⟩
    intro i hi
    exact ⟨rfl, get_of_toList hold i (by omega)⟩
  · refine ⟨_, _, resize_uninitialized_ne n junk h a old hold hn, ?_⟩
    intro i hi
    have hg := get_of_toList hold i (by omega)
    refine ⟨?_, hg⟩
    rw [hg, get_ofMemory (Heap.live_append_new h _),
      List.getElem?_append_left (by simp; omega), List.getElem?_take_of_lt (by omega)]

/-- Witness of `resize_uninitialized_preserves`: `vector{ 5, 7, 12 }` shrunk by
`resize(2)`. -/
theorem resize_uninitialized_preserves_witness :
    test_vector.toList test_heap = some [5, 7, 12] ∧
    ∃ h' a', resize Policy.uninitialized 2 (Alloc.ok test_junk) test_heap test_vector
        = Result.ok (h', a') ∧
      ∀ i, i < min 3 2 →
        a'.get h' i = test_vector.get test_heap i ∧
          test_vector.get test_heap i = [5, 7, 12][i]? :=
  ⟨by decide,
    resize_uninitialized_preserves test_heap test_vector [5, 7, 12] 2 test_junk (by decide)⟩

/-- C4: for a vector of size `m` and a target size `n ≠ m`, after
`resize(n, v, non_preserving_initialized_tag)` (allocation succeeding) every
element at an index below `n` equals `v`, whatever the vector held before. -/
theorem resize_non_preserving_initialized_fills (h : Heap T) (a : Vector T Qual.mutable)
    (m n : Nat) (v : T) (junk : Nat → T) (hs : a.size = some m) (hne : n ≠ m) :
    ∃ h' a', resize (Policy.non_preserving_initialized v) n (Alloc.ok junk) h a
        = Result.ok (h', a') ∧
      ∀ i, i < n → a'.get h' i = some v := by
  refine ⟨_, _, resize_non_preserving_initialized_ne n v junk h a m hs (Ne.symm hne), ?_⟩
  intro i hi
  rw [get_ofMemory (Heap.live_append_new h _), List.getElem?_replicate_of_lt hi]

/-- Witness of `resize_non_preserving_initialized_fills`: `vector{ 5, 7, 12 }`
resized by `resize(4, 87, non_preserving_initialized_tag)`. -/
theorem resize_non_preserving_initialized_fills_witness :
    test_vector.size = some 3 ∧ 4 ≠ 3 ∧
    ∃ h' a', resize (Policy.non_preserving_initialized 87) 4 (Alloc.ok test_junk) test_heap
        test_vector = Result.ok (h', a') ∧
      ∀ i, i < 4 → a'.get h' i = some 87 :=
  ⟨by decide, by decide,
    resize_non_preserving_initialized_fills test_heap test_vector 3 4 87 test_junk
      (by decide) (by decide)⟩

/-- C5: for a vector whose elements are readable (the default-constructed
vector included), every target size `n` and each of the four policies, the
resize returns (allocation succeeding) and `size()` is `n` afterwards. -/
theorem resize_size (h : Heap T) (a : Vector T Qual.mutable) (old : List T) (p : Policy T)
    (n : Nat) (junk : Nat → T) (hold : a.toList h = some old) :
    ∃ h' a', resize p n (Alloc.ok junk) h a = Result.ok (h', a') ∧ a'.size = some n := by
  obtain ⟨hs, _⟩ := toList_inv hold
  by_cases hn : old.length = n
  · subst hn
    cases p with
    | uninitialized => exact ⟨h, a, resize_uninitialized_eq _ (Alloc.ok junk) h a hs, hs⟩
    | initialized v => exact ⟨h, a, resize_initialized_eq _ v (Alloc.ok junk) h a hs, hs⟩
    | non_preserving_uninitialized =>
      exact ⟨h, a, resize_non_preserving_uninitialized_eq _ (Alloc.ok junk) h a hs, hs⟩
    | non_preserving_initialized v =>
      obtain ⟨h', hr, _⟩ := resize_non_preserving_initialized_eq v (Alloc.ok junk) h a old hold
      exact ⟨h', a, hr, hs⟩
  · cases p with
    | uninitialized =>
      exact ⟨_, _, resize_uninitialized_ne n junk h a old hold hn, size_ofMemory _ _⟩
    | initialized v =>
      exact ⟨_, _, resize_initialized_ne n v junk h a old hold hn, size_ofMemory _ _⟩
    | non_preserving_uninitialized =>
      exact ⟨_, _, resize_non_preserving_uninitialized_ne n junk h a old.length hs hn,
        size_ofMemory _ _⟩
    | non_preserving_initialized v =>
      exact ⟨_, _, resize_non_preserving_initialized_ne n v junk h a old.length hs hn,
        size_ofMemory _ _⟩

/-- Witness of `resize_size`: the default-constructed vector of the
`VectorVectorCopy` test resized to `3` without preserving. -/
theorem resize_size_witness :
    (default : Vector Int Qual.mutable).toList Heap.empty = some [] ∧
    ∃ h' a', resize Policy.non_preserving_uninitialized 3 (Alloc.ok test_junk) Heap.empty
        default = Result.ok (h', a') ∧ a'.size = some 3 :=
  ⟨by decide,
    resize_size Heap.empty default [] Policy.non_preserving_uninitialized 3 test_junk
      (by decide)⟩

/-- A size-changing resize never releases the block the vector owned: the old
block is still live, with its cells, in the heap the resize returns. -/
theorem resize_keeps_old_block_live (h : Heap T) (a : Vector T Qual.mutable) (old : List T)
    (p : Policy T) (n : Nat) (junk : Nat → T) (b : Nat) (cells : List T)
    (hold : a.toList h = some old) (hn : old.length ≠ n) (hb : h.Live b cells) :
    ∃ h' a', resize p n (Alloc.ok junk) h a = Result.ok (h', a') ∧ h'.Live b cells ∧
      a'.begin_ = some ⟨h.blocks.length, 0⟩ := by
  obtain ⟨hs, _⟩ := toList_inv hold
  cases p with
  | uninitialized =>
    exact ⟨_, _, resize_uninitialized_ne n junk h a old hold hn, Heap.live_append _ hb, rfl⟩
  | initialized v =>
    exact ⟨_, _, resize_initialized_ne n v junk h a old hold hn, Heap.live_append _ hb, rfl⟩
  | non_preserving_uninitialized =>
    exact ⟨_, _, resize_non_preserving_uninitialized_ne n junk h a old.length hs hn,
      Heap.live_append _ hb, rfl⟩
  | non_preserving_initialized v =>
    exact ⟨_, _, resize_non_preserving_initialized_ne n v junk h a old.length hs hn,
      Heap.live_append _ hb, rfl⟩

/-- C6 (the code at the failing input): `vector{ 5, 7, 12 }` owns block `0`;
after `resize(5, 24)` the vector owns the new block `1` while block `0` is
still live, under each of the other three policies as well; destroying the
vector afterwards releases block `1` only, so block `0` is never released. -/
theorem resize_leaks_old_block_example :
    ofList [5, 7, 12] (Alloc.ok test_junk) Heap.empty = Result.ok (test_heap, test_vector) ∧
    test_vector.begin = some ⟨0, 0⟩ ∧
    resize (Policy.initialized 24) 5 (Alloc.ok test_junk) test_heap test_vector
      = Result.ok (⟨[some [5, 7, 12], some [5, 7, 12, 24, 24]]⟩, ofMemory (some ⟨1, 0⟩) 5) ∧
    resize Policy.uninitialized 5 (Alloc.ok test_junk) test_heap test_vector
      = Result.ok (⟨[some [5, 7, 12], some [5, 7, 12, -1, -1]]⟩, ofMemory (some ⟨1, 0⟩) 5) ∧
    resize Policy.non_preserving_uninitialized 5 (Alloc.ok test_junk) test_heap test_vector
      = Result.ok (⟨[some [5, 7, 12], some [-1, -1, -1, -1, -1]]⟩,
          ofMemory (some ⟨1, 0⟩) 5) ∧
    resize (Policy.non_preserving_initialized 24) 5 (Alloc.ok test_junk) test_heap test_vector
      = Result.ok (⟨[some [5, 7, 12], some [24, 24, 24, 24, 24]]⟩,
          ofMemory (some ⟨1, 0⟩) 5) ∧
    destroy (⟨[some [5, 7, 12], some [5, 7, 12, 24, 24]]⟩ : Heap Int)
        (ofMemory (some ⟨1, 0⟩) 5 : Vector Int Qual.mutable)
      = some ⟨[some [5, 7, 12], none]⟩ := by
  decide

/-- C7: for a vector of size `m`, a target size `n ≠ m` and each of the four
policies, when the allocation fails the resize leaves with `std::bad_alloc`
and the heap and the vector (its `begin_`, its `end_`, hence its size and
every element) are exactly as before the call; and whatever the allocator
answers, a resize that leaves with `std::bad_alloc` leaves heap and vector as
they were. -/
theorem resize_bad_alloc_atomic (h : Heap T) (a : Vector T Qual.mutable) (p : Policy T)
    (m n : Nat) (hs : a.size = some m) (hne : m ≠ n) :
    resize p n Alloc.fail h a = Result.bad_alloc (h, a) ∧
    ∀ r st, resize p n r h a = Result.bad_alloc st → r = Alloc.fail ∧ st = (h, a) := by
  constructor
  · cases p <;>
      simp [resize, resize_uninitialized, resize_initialized,
        resize_non_preserving_initialized, resize_non_preserving_uninitialized, hs, hne,
        uninitialized_fail]
  · intro r st hr
    cases r with
    | fail =>
      refine ⟨rfl, ?_⟩
      cases p <;>
        simp [resize, resize_uninitialized, resize_initialized,
          resize_non_preserving_initialized, resize_non_preserving_uninitialized, hs, hne,
          uninitialized_fail] at hr <;> exact hr.symm
    | ok junk =>
      exfalso
      cases p with
      | uninitialized =>
        simp only [resize, resize_uninitialized, hs, uninitialized_ok] at hr
        repeat (split at hr <;> try cases hr)
      | initialized v =>
        simp only [resize, resize_initialized, hs, uninitialized_ok] at hr
        repeat (split at hr <;> try cases hr)
      | non_preserving_uninitialized =>
        simp only [resize, resize_non_preserving_uninitialized, hs, uninitialized_ok] at hr
        repeat (split at hr <;> try cases hr)
      | non_preserving_initialized v =>
        simp only [resize, resize_non_preserving_initialized,
          resize_non_preserving_uninitialized_ne n junk h a m hs hne] at hr
        repeat (split at hr <;> try cases hr)

/-- Witness of `resize_bad_alloc_atomic`: `vector{ 5, 7, 12 }`, `resize(5, 24)`
with a failing allocation. -/
theorem resize_bad_alloc_atomic_witness :
    test_vector.size = some 3 ∧ 3 ≠ 5 ∧
    resize (Policy.initialized 24) 5 Alloc.fail test_heap test_vector
      = Result.bad_alloc (test_heap, test_vector) ∧
    ∀ r st, resize (Policy.initialized 24) 5 r test_heap test_vector = Result.bad_alloc st →
      r = Alloc.fail ∧ st = (test_heap, test_vector) :=
  ⟨by decide, by decide,
    resize_bad_alloc_atomic test_heap test_vector (Policy.initialized 24) 3 5
      (by decide) (by decide)⟩

/-! ## Moves and construction -/

/-- C8: move construction `b{move(a)}` and move assignment `b = move(a)` (into
any `b`, the empty one included) give `b` the `begin_` and `end_` of `a` (the
same block, no element copied), hence its size and elements; `a` is left with
`begin_ = end_ = nullptr` and size `0`, and destroying `a` afterwards returns
the heap unchanged, so the elements of `b` stay readable and unchanged. -/
theorem move_empties_source {q : Qual} (h : Heap T) (a b : Vector T q) :
    ((move a).1.begin_ = a.begin_ ∧ (move a).1.end_ = a.end_ ∧
      (move a).1.size = a.size ∧ (∀ i, (move a).1.get h i = a.get h i) ∧
      (move a).1.toList h = a.toList h ∧
      (move a).2.begin_ = none ∧ (move a).2.end_ = none ∧ (move a).2.size = some 0 ∧
      destroy h (move a).2 = some h) ∧
    ((move_assign b a).1.begin_ = a.begin_ ∧ (move_assign b a).1.end_ = a.end_ ∧
      (move_assign b a).1.size = a.size ∧ (∀ i, (move_assign b a).1.get h i = a.get h i) ∧
      (move_assign b a).1.toList h = a.toList h ∧
      (move_assign b a).2.begin_ = none ∧ (move_assign b a).2.end_ = none ∧
      (move_assign b a).2.size = some 0 ∧
      destroy h (move_assign b a).2 = some h) := by
  refine ⟨⟨rfl, rfl, rfl, fun _ => rfl, rfl, rfl, rfl, rfl, rfl⟩,
    ⟨rfl, rfl, rfl, fun _ => rfl, rfl, rfl, rfl, rfl, rfl⟩⟩

/-- C9: the converting move construction and the converting move assignment
from a `Vector<T>` `a` into a `Vector<const T>` `c` give `c` the `begin_` and
`end_` of `a`, hence its size and, at every index, its element; `a` is left
with `begin_ = end_ = nullptr` and size `0`. -/
theorem converting_move_transfers (h : Heap T) (a : Vector T Qual.mutable)
    (c : Vector T Qual.immutable) :
    ((move_converting a).1.begin_ = a.begin_ ∧ (move_converting a).1.end_ = a.end_ ∧
      (move_converting a).1.size = a.size ∧
      (∀ i, (move_converting a).1.get h i = a.get h i) ∧
      (move_converting a).1.toList h = a.toList h ∧
      (move_converting a).2.begin_ = none ∧ (move_converting a).2.end_ = none ∧
      (move_converting a).2.size = some 0) ∧
    ((move_assign_converting c a).1.begin_ = a.begin_ ∧
      (move_assign_converting c a).1.end_ = a.end_ ∧
      (move_assign_converting c a).1.size = a.size ∧
      (∀ i, (move_assign_converting c a).1.get h i = a.get h i) ∧
      (move_assign_converting c a).1.toList h = a.toList h ∧
      (move_assign_converting c a).2.begin_ = none ∧
      (move_assign_converting c a).2.end_ = none ∧
      (move_assign_converting c a).2.size = some 0) := by
  refine ⟨⟨rfl, rfl, rfl, fun _ => rfl, rfl, rfl, rfl, rfl⟩,
    ⟨rfl, rfl, rfl, fun _ => rfl, rfl, rfl, rfl, rfl⟩⟩

/-- The constructor `Vector(s, value, initialized_tag)` appends a block of
`s` copies of `value` and returns the vector over it. -/
theorem initialized_ok (s : Nat) (v : T) (junk : Nat → T) (h : Heap T) :
    initialized s v (Alloc.ok junk) h =
      Result.ok (⟨h.blocks ++ [some (List.replicate s v)]⟩,
        ofMemory (some ⟨h.blocks.length, 0⟩) s) := by
  unfold initialized
  rw [uninitialized_ok]
  simp only [fill, VectorView.begin, VectorView.«end», ofMemory, Ptr.add, Ptr.diff]
  simp only [Nat.zero_add, and_self, Nat.zero_le, if_true, Nat.sub_zero, le_refl]
  rw [fill_n_live h.blocks.length v s _ 0 _ (Heap.live_append_new h _) (by simp)]
  simp [list_set_append_last]

/-- C10: for every size `n` and value `v`, the constructor
`Vector(n, v, initialized_tag)` (allocation succeeding, whatever the fresh
block held) returns a vector with `size() = n` whose element at every index
`i < n` is `v`. -/
theorem initialized_filled (h : Heap T) (n : Nat) (v : T) (junk : Nat → T) :
    ∃ h' a, initialized n v (Alloc.ok junk) h = Result.ok (h', a) ∧
      a.size = some n ∧ (∀ i, i < n → a.get h' i = some v) ∧
      a.toList h' = some (List.replicate n v) := by
  refine ⟨_, _, initialized_ok n v junk h, size_ofMemory _ _, ?_, ?_⟩
  · intro i hi
    rw [get_ofMemory (Heap.live_append_new h _), List.getElem?_replicate_of_lt hi]
  · have htl := toList_ofMemory (q := Qual.mutable)
      (Heap.live_append_new h (List.replicate n v))
    rw [List.length_replicate] at htl
    exact htl

end Vector

/-! ## Literal-list construction -/

theorem copy_list_live (b : Nat) :
    ∀ (l : List T) (h : Heap T) (o : Nat) (cells : List T), h.Live b cells →
      o + l.length ≤ cells.length →
      copy_list l h (some ⟨b, o⟩) =
        some (⟨h.blocks.set b (some (cells.take o ++ l ++ cells.drop (o + l.length)))⟩,
          some ⟨b, o + l.length⟩) := by
  intro l
  induction l with
  | nil =>
    intro h o cells hl _
    simp only [copy_list, List.append_nil, List.length_nil, Nat.add_zero,
      List.take_append_drop]
    rw [list_set_self _ _ _ hl]
  | cons x xs ih =>
    intro h o cells hl ho
    simp only [List.length_cons] at ho
    have hlt : o < cells.length := by omega
    rw [copy_list, Heap.write_live hl o hlt]
    simp only [Ptr.add]
    have hl1 := Heap.live_set_same h b (cells.set o x) hl.lt
    rw [ih _ (o + 1) (cells.set o x) hl1 (by simp; omega)]
    simp only [List.set_set, list_take_set_succ cells o x hlt, list_drop_set_succ,
      List.length_cons]
    have e1 : o + (xs.length + 1) = o + 1 + xs.length := by omega
    rw [e1]
    simp

namespace Vector

/-- The constructor `Vector(std::initializer_list<T> l)` appends a block
holding the elements of `l` and returns the vector over it. -/
theorem ofList_ok (l : List T) (junk : Nat → T) (h : Heap T) :
    ofList l (Alloc.ok junk) h =
      Result.ok (⟨h.blocks ++ [some l]⟩, ofMemory (some ⟨h.blocks.length, 0⟩) l.length) := by
  unfold ofList
  rw [uninitialized_ok]
  simp only [VectorView.begin, ofMemory]
  rw [copy_list_live h.blocks.length l _ 0 _ (Heap.live_append_new h _) (by simp)]
  simp [list_set_append_last]

/-- C11: for every list `l`, the constructor `Vector(std::initializer_list<T> l)`
(allocation succeeding, whatever the fresh block held) returns a vector whose
`size()` is the length of `l` and whose element `i` is `l[i]` for every index,
in order; in particular `{ 3 }` has size `1` and `{ 3, 2 }` has size `2`. -/
theorem ofList_elements (h : Heap T) (l : List T) (junk : Nat → T) :
    (∃ h' a, ofList l (Alloc.ok junk) h = Result.ok (h', a) ∧
      a.size = some l.length ∧ (∀ i, i < l.length → a.get h' i = l[i]?) ∧
      a.toList h' = some l) ∧
    (∃ h' a, ofList [3] (Alloc.ok (fun _ => 0)) (Heap.empty : Heap Nat) = Result.ok (h', a) ∧
      a.size = some 1 ∧ a.toList h' = some [3]) ∧
    (∃ h' a, ofList [3, 2] (Alloc.ok (fun _ => 0)) (Heap.empty : Heap Nat)
        = Result.ok (h', a) ∧
      a.size = some 2 ∧ a.toList h' = some [3, 2]) := by
  refine ⟨⟨_, _, ofList_ok l junk h, size_ofMemory _ _, ?_,
    toList_ofMemory (Heap.live_append_new h l)⟩, ⟨_, _, rfl, by decide, by decide⟩,
    ⟨_, _, rfl, by decide, by decide⟩⟩
  intro i _
  rw [get_ofMemory (Heap.live_append_new h l)]

end Vector

/-! ## Algebra of the resize overloads -/

theorem Heap.write_length {h h' : Heap T} {p : Ptr} {x : T} (hw : h.write p x = some h') :
    h'.blocks.length = h.blocks.length := by
  cases p with
  | none => simp [Heap.write] at hw
  | some a =>
    simp only [Heap.write] at hw
    split at hw
    · split at hw
      · simp only [Option.some.injEq] at hw
        rw [← hw]
        simp
      · cases hw
    · cases hw

theorem fill_n_length (v : T) :
    ∀ (k : Nat) (h h' : Heap T) (p : Ptr), fill_n v k h p = some h' →
      h'.blocks.length = h.blocks.length := by
  intro k
  induction k with
  | zero =>
    intro h h' p hf
    simp only [fill_n, Option.some.injEq] at hf
    rw [hf]
  | succ k ih =>
    intro h h' p hf
    rw [fill_n] at hf
    cases hw : h.write p v with
    | none => simp [hw] at hf
    | some h1 =>
      simp only [hw] at hf
      rw [ih _ _ _ hf, Heap.write_length hw]

theorem fill_length {h h' : Heap T} {first last : Ptr} {v : T}
    (hf : fill h first last v = some h') : h'.blocks.length = h.blocks.length := by
  unfold fill at hf
  cases hd : Ptr.diff last first with
  | none => simp [hd] at hf
  | some k =>
    simp only [hd] at hf
    exact fill_n_length v k _ _ _ hf

namespace Vector

/-- With an unchanged size, `resize(s, value, non_preserving_initialized_tag)`
returns the same vector over a heap with the same blocks allocated. -/
theorem resize_non_preserving_initialized_eq_blocks (s : Nat) (v : T) (r : Alloc T)
    (h h' : Heap T) (a a' : Vector T Qual.mutable) (hs : a.size = some s)
    (hr : resize_non_preserving_initialized s v r h a = Result.ok (h', a')) :
    a' = a ∧ h'.blocks.length = h.blocks.length := by
  unfold resize_non_preserving_initialized at hr
  rw [resize_non_preserving_uninitialized_eq s r h a hs] at hr
  simp only at hr
  cases hf : fill h a.begin a.«end» v with
  | none => simp [hf] at hr
  | some h2 =>
    simp only [hf, Result.ok.injEq, Prod.mk.injEq] at hr
    obtain ⟨h1, h2'⟩ := hr
    subst h1 h2'
    exact ⟨rfl, fill_length hf⟩

/-- Elements after `resize(n, value, initialized_tag)`, for every target size. -/
theorem resize_initialized_toList (h : Heap T) (a : Vector T Qual.mutable) (old : List T)
    (n : Nat) (v : T) (junk : Nat → T) (hold : a.toList h = some old) :
    ∃ h' a', resize_initialized n v (Alloc.ok junk) h a = Result.ok (h', a') ∧
      a'.toList h' = some (old.take n ++ List.replicate (n - old.length) v) := by
  obtain ⟨hs, _⟩ := toList_inv hold
  by_cases hn : old.length = n
  · subst hn
    refine ⟨h, a, resize_initialized_eq _ v (Alloc.ok junk) h a hs, ?_⟩
    simp [hold]
  · have hlen : (old.take n ++ List.replicate (n - old.length) v).length = n := by
      simp only [List.length_append, List.length_take, List.length_replicate]; omega
    have htl := toList_ofMemory (q := Qual.mutable)
      (Heap.live_append_new h (old.take n ++ List.replicate (n - old.length) v))
    rw [hlen] at htl
    exact ⟨_, _, resize_initialized_ne n v junk h a old hold hn, htl⟩

/-- Elements after `resize(n, uninitialized_tag)`, for every target size: the
kept elements followed by what the allocator left in the grown tail. -/
theorem resize_uninitialized_toList (h : Heap T) (a : Vector T Qual.mutable) (old : List T)
    (n : Nat) (junk : Nat → T) (hold : a.toList h = some old) :
    ∃ h' a', resize_uninitialized n (Alloc.ok junk) h a = Result.ok (h', a') ∧
      a'.toList h' = some (old.take n ++ ((List.range n).map junk).drop old.length) := by
  obtain ⟨hs, _⟩ := toList_inv hold
  by_cases hn : old.length = n
  · subst hn
    refine ⟨h, a, resize_uninitialized_eq _ (Alloc.ok junk) h a hs, ?_⟩
    rw [List.drop_of_length_le (by simp)]
    simp [hold]
  · have hd : ((List.range n).map junk).drop (min n old.length)
        = ((List.range n).map junk).drop old.length := by
      rcases Nat.le_total n old.length with hle | hge
      · rw [Nat.min_eq_left hle, List.drop_of_length_le (by simp),
          List.drop_of_length_le (by simp; omega)]
      · rw [Nat.min_eq_right hge]
    have hlen : (old.take n ++ ((List.range n).map junk).drop old.length).length = n := by
      simp only [List.length_append, List.length_take, List.length_drop, List.length_map,
        List.length_range]
      omega
    have htl := toList_ofMemory (q := Qual.mutable)
      (Heap.live_append_new h (old.take n ++ ((List.range n).map junk).drop old.length))
    rw [hlen] at htl
    have hr := resize_uninitialized_ne n junk h a old hold hn
    rw [hd] at hr
    exact ⟨_, _, hr, htl⟩

/-- Elements after `resize(n, value, non_preserving_initialized_tag)`, for
every target size. -/
theorem resize_non_preserving_initialized_toList (h : Heap T) (a : Vector T Qual.mutable)
    (old : List T) (n : Nat) (v : T) (junk : Nat → T) (hold : a.toList h = some old) :
    ∃ h' a', resize_non_preserving_initialized n v (Alloc.ok junk) h a = Result.ok (h', a') ∧
      a'.size = some n ∧ a'.toList h' = some (List.replicate n v) := by
  obtain ⟨hs, _⟩ := toList_inv hold
  by_cases hn : old.length = n
  · subst hn
    obtain ⟨h', hr, htl⟩ := resize_non_preserving_initialized_eq v (Alloc.ok junk) h a old hold
    exact ⟨h', a, hr, hs, htl⟩
  · have htl := toList_ofMemory (q := Qual.mutable)
      (Heap.live_append_new h (List.replicate n v))
    rw [List.length_replicate] at htl
    exact ⟨_, _, resize_non_preserving_initialized_ne n v junk h a old.length hs hn,
      size_ofMemory _ _, htl⟩

end Vector

theorem list_take_take_append_replicate {α : Type} (old : List α) (m n : Nat) (v : α)
    (hmn : m ≤ n) :
    (old.take n ++ List.replicate (n - old.length) v).take m
      = old.take m ++ List.replicate (m - old.length) v := by
  rw [List.take_append_eq_append_take, List.take_take, List.take_replicate,
    Nat.min_eq_left hmn]
  congr 2
  simp only [List.length_take]
  omega

theorem list_shrink_back {α : Type} (old tail fresh : List α)
    (hf : fresh.length = old.length) :
    List.take old.length (old ++ tail) ++ List.drop (old ++ tail).length fresh = old := by
  rw [List.drop_of_length_le (by simp [hf]), List.append_nil,
    List.take_append_of_le_length (Nat.le_refl _), List.take_of_length_le (Nat.le_refl _)]

namespace Vector

/-- C17: for a vector whose elements are `old`, a resize to the current size
`old.length` under each of the four policies returns whatever the allocator
would answer (none is requested), the heap holds the same number of blocks
afterwards, and the vector has the same `begin_` and `end_` as before. -/
theorem resize_same_size_no_reallocation (h : Heap T) (a : Vector T Qual.mutable)
    (old : List T) (p : Policy T) (r : Alloc T) (hold : a.toList h = some old) :
    ∃ h' a', resize p old.length r h a = Result.ok (h', a') ∧
      h'.blocks.length = h.blocks.length ∧ a'.begin_ = a.begin_ ∧ a'.end_ = a.end_ := by
  obtain ⟨hs, _⟩ := toList_inv hold
  cases p with
  | uninitialized => exact ⟨h, a, resize_uninitialized_eq _ r h a hs, rfl, rfl, rfl⟩
  | initialized v => exact ⟨h, a, resize_initialized_eq _ v r h a hs, rfl, rfl, rfl⟩
  | non_preserving_uninitialized =>
    exact ⟨h, a, resize_non_preserving_uninitialized_eq _ r h a hs, rfl, rfl, rfl⟩
  | non_preserving_initialized v =>
    obtain ⟨h', hr, _⟩ := resize_non_preserving_initialized_eq v r h a old hold
    obtain ⟨_, hb⟩ := resize_non_preserving_initialized_eq_blocks _ v r h h' a a hs hr
    exact ⟨h', a, hr, hb, rfl, rfl⟩

/-- Witness of `resize_same_size_no_reallocation`: `vector{ 5, 7, 12 }`,
`resize(3, 87, non_preserving_initialized_tag)` with an allocator that would
fail. -/
theorem resize_same_size_no_reallocation_witness :
    test_vector.toList test_heap = some [5, 7, 12] ∧
    ∃ h' a', resize (Policy.non_preserving_initialized 87) 3 Alloc.fail test_heap test_vector
        = Result.ok (h', a') ∧
      h'.blocks.length = test_heap.blocks.length ∧ a'.begin_ = test_vector.begin_ ∧
      a'.end_ = test_vector.end_ :=
  ⟨by decide,
    resize_same_size_no_reallocation test_heap test_vector [5, 7, 12]
      (Policy.non_preserving_initialized 87) Alloc.fail (by decide)⟩

/-- C18: for a vector whose elements are readable, every target size `n` (the
current size included) and every value `v`, the elements after
`resize(n, v, non_preserving_initialized_tag)` are those of a freshly
constructed `Vector(n, v, initialized_tag)`: `n` copies of `v`. -/
theorem resize_non_preserving_initialized_as_fresh (h : Heap T) (a : Vector T Qual.mutable)
    (old : List T) (n : Nat) (v : T) (junk junk' : Nat → T) (hold : a.toList h = some old) :
    ∃ h1 a1 h2 a2,
      resize (Policy.non_preserving_initialized v) n (Alloc.ok junk) h a = Result.ok (h1, a1) ∧
      initialized n v (Alloc.ok junk') h = Result.ok (h2, a2) ∧
      a1.size = a2.size ∧ a1.toList h1 = a2.toList h2 ∧
      a1.toList h1 = some (List.replicate n v) := by
  obtain ⟨h1, a1, hr, hs1, htl1⟩ := resize_non_preserving_initialized_toList h a old n v junk hold
  have htl2 := toList_ofMemory (q := Qual.mutable) (Heap.live_append_new h (List.replicate n v))
  rw [List.length_replicate] at htl2
  refine ⟨h1, a1, _, _, hr, initialized_ok n v junk' h, ?_, ?_, htl1⟩
  · rw [hs1, size_ofMemory]
  · rw [htl1, htl2]

/-- Witness of `resize_non_preserving_initialized_as_fresh`: `vector{ 5, 7, 12 }`
with the unchanged size `3`. -/
theorem resize_non_preserving_initialized_as_fresh_witness :
    test_vector.toList test_heap = some [5, 7, 12] ∧
    ∃ h1 a1 h2 a2,
      resize (Policy.non_preserving_initialized 87) 3 (Alloc.ok test_junk) test_heap test_vector
        = Result.ok (h1, a1) ∧
      initialized 3 87 (Alloc.ok test_junk) test_heap = Result.ok (h2, a2) ∧
      a1.size = a2.size ∧ a1.toList h1 = a2.toList h2 ∧
      a1.toList h1 = some [87, 87, 87] :=
  ⟨by decide,
    resize_non_preserving_initialized_as_fresh test_heap test_vector [5, 7, 12] 3 87 test_junk
      test_junk (by decide)⟩

/-- C19: for a vector whose elements are `old` and every `m ≥ old.length`,
growing by `resize(m, v)` or by `resize(m)` and then shrinking back by
`resize(old.length)` (allocations succeeding, whatever the fresh blocks held)
gives a vector of size `old.length` whose elements are exactly `old`. -/
theorem resize_grow_then_shrink (h : Heap T) (a : Vector T Qual.mutable) (old : List T)
    (m : Nat) (v : T) (junk1 junk2 : Nat → T) (hold : a.toList h = some old)
    (hm : old.length ≤ m) :
    (∃ h1 a1 h2 a2,
      resize (Policy.initialized v) m (Alloc.ok junk1) h a = Result.ok (h1, a1) ∧
      resize Policy.uninitialized old.length (Alloc.ok junk2) h1 a1 = Result.ok (h2, a2) ∧
      a2.size = some old.length ∧ a2.toList h2 = some old) ∧
    (∃ h1 a1 h2 a2,
      resize Policy.uninitialized m (Alloc.ok junk1) h a = Result.ok (h1, a1) ∧
      resize Policy.uninitialized old.length (Alloc.ok junk2) h1 a1 = Result.ok (h2, a2) ∧
      a2.size = some old.length ∧ a2.toList h2 = some old) := by
  constructor
  · obtain ⟨h1, a1, hr1, htl1⟩ := resize_initialized_toList h a old m v junk1 hold
    rw [List.take_of_length_le hm] at htl1
    obtain ⟨h2, a2, hr2, htl2⟩ := resize_uninitialized_toList h1 a1 _ old.length junk2 htl1
    have hfin : a2.toList h2 = some old := by
      rw [htl2, list_shrink_back old _ _ (by simp)]
    exact ⟨h1, a1, h2, a2, hr1, hr2, (toList_inv hfin).1, hfin⟩
  · obtain ⟨h1, a1, hr1, htl1⟩ := resize_uninitialized_toList h a old m junk1 hold
    rw [List.take_of_length_le hm] at htl1
    obtain ⟨h2, a2, hr2, htl2⟩ := resize_uninitialized_toList h1 a1 _ old.length junk2 htl1
    have hfin : a2.toList h2 = some old := by
      rw [htl2, list_shrink_back old _ _ (by simp)]
    exact ⟨h1, a1, h2, a2, hr1, hr2, (toList_inv hfin).1, hfin⟩

/-- Witness of `resize_grow_then_shrink`: `vector{ 5, 7, 12 }` grown to `5` and
shrunk back to `3`. -/
theorem resize_grow_then_shrink_witness :
    test_vector.toList test_heap = some [5, 7, 12] ∧ [5, 7, 12].length ≤ 5 ∧
    (∃ h1 a1 h2 a2,
      resize (Policy.initialized 24) 5 (Alloc.ok test_junk) test_heap test_vector
        = Result.ok (h1, a1) ∧
      resize Policy.uninitialized 3 (Alloc.ok test_junk) h1 a1 = Result.ok (h2, a2) ∧
      a2.size = some 3 ∧ a2.toList h2 = some [5, 7, 12]) ∧
    (∃ h1 a1 h2 a2,
      resize Policy.uninitialized 5 (Alloc.ok test_junk) test_heap test_vector
        = Result.ok (h1, a1) ∧
      resize Policy.uninitialized 3 (Alloc.ok test_junk) h1 a1 = Result.ok (h2, a2) ∧
      a2.size = some 3 ∧ a2.toList h2 = some [5, 7, 12]) :=
  ⟨by decide, by decide,
    resize_grow_then_shrink test_heap test_vector [5, 7, 12] 5 24 test_junk test_junk
      (by decide) (by decide)⟩

/-- C20: for a vector whose elements are `old`, every value `v` and all sizes
`m ≤ n`, `resize(n, v)` followed by `resize(m, v)` gives the same elements as
the single `resize(m, v)` on the original vector, namely the first `m`
elements of `old` followed by `m - old.length` copies of `v`; with `m = n`
this is the idempotence of `resize(n, v)`. -/
theorem resize_initialized_compose (h : Heap T) (a : Vector T Qual.mutable) (old : List T)
    (m n : Nat) (v : T) (junk1 junk2 junk3 : Nat → T) (hold : a.toList h = some old)
    (hmn : m ≤ n) :
    ∃ h1 a1 h2 a2 h3 a3,
      resize (Policy.initialized v) n (Alloc.ok junk1) h a = Result.ok (h1, a1) ∧
      resize (Policy.initialized v) m (Alloc.ok junk2) h1 a1 = Result.ok (h2, a2) ∧
      resize (Policy.initialized v) m (Alloc.ok junk3) h a = Result.ok (h3, a3) ∧
      a2.toList h2 = a3.toList h3 ∧
      a3.toList h3 = some (old.take m ++ List.replicate (m - old.length) v) := by
  obtain ⟨h1, a1, hr1, htl1⟩ := resize_initialized_toList h a old n v junk1 hold
  obtain ⟨h2, a2, hr2, htl2⟩ := resize_initialized_toList h1 a1 _ m v junk2 htl1
  obtain ⟨h3, a3, hr3, htl3⟩ := resize_initialized_toList h a old m v junk3 hold
  have hlen : (old.take n ++ List.replicate (n - old.length) v).length = n := by
    simp only [List.length_append, List.length_take, List.length_replicate]; omega
  refine ⟨h1, a1, h2, a2, h3, a3, hr1, hr2, hr3, ?_, htl3⟩
  rw [htl2, htl3, hlen, Nat.sub_eq_zero_of_le hmn, List.replicate_zero, List.append_nil,
    list_take_take_append_replicate old m n v hmn]

/-- Witness of `resize_initialized_compose`: `vector{ 5, 7, 12 }`, `resize(5, 24)`
then `resize(4, 24)` against `resize(4, 24)`. -/
theorem resize_initialized_compose_witness :
    test_vector.toList test_heap = some [5, 7, 12] ∧ 4 ≤ 5 ∧
    ∃ h1 a1 h2 a2 h3 a3,
      resize (Policy.initialized 24) 5 (Alloc.ok test_junk) test_heap test_vector
        = Result.ok (h1, a1) ∧
      resize (Policy.initialized 24) 4 (Alloc.ok test_junk) h1 a1 = Result.ok (h2, a2) ∧
      resize (Policy.initialized 24) 4 (Alloc.ok test_junk) test_heap test_vector
        = Result.ok (h3, a3) ∧
      a2.toList h2 = a3.toList h3 ∧
      a3.toList h3 = some ([5, 7, 12].take 4 ++ List.replicate (4 - [5, 7, 12].length) 24) :=
  ⟨by decide, by decide,
    resize_initialized_compose test_heap test_vector [5, 7, 12] 4 5 24 test_junk test_junk
      test_junk (by decide) (by decide)⟩

end Vector

/-! ## Views alias their storage -/

theorem Heap.read_of_readN {h : Heap T} {p : Ptr} {n : Nat} {elems : List T}
    (hr : h.readN n p = some elems) (i : Nat) (hi : i < n) :
    h.read (p.add i) = elems[i]? := by
  cases n with
  | zero => omega
  | succ m =>
    obtain ⟨b, o, cells, hp, hlive, hle, hl⟩ := Heap.readN_inv h m _ _ hr
    rw [hp]
    simp only [Ptr.add]
    rw [Heap.read_live hlive, hl, List.getElem?_take_of_lt (by omega), List.getElem?_drop]

theorem Heap.write_of_readN {h : Heap T} {p : Ptr} {n : Nat} {elems : List T}
    (hr : h.readN n p = some elems) (i : Nat) (hi : i < n) (x : T) :
    ∃ h', h.write (p.add i) x = some h' ∧ h'.read (p.add i) = some x ∧
      ∀ j, j ≠ i → h'.read (p.add j) = h.read (p.add j) := by
  cases n with
  | zero => omega
  | succ m =>
    obtain ⟨b, o, cells, hp, hlive, hle, _⟩ := Heap.readN_inv h m _ _ hr
    have hlt : o + i < cells.length := by omega
    refine ⟨_, by rw [hp]; exact Heap.write_live hlive (o + i) hlt x, ?_, ?_⟩
    · rw [hp]
      simp only [Ptr.add]
      rw [Heap.read_live (Heap.live_set_same h b _ hlive.lt)]
      simp [hlt]
    · intro j hj
      rw [hp]
      simp only [Ptr.add]
      rw [Heap.read_live (Heap.live_set_same h b _ hlive.lt), Heap.read_live hlive,
        List.getElem?_set_ne (by omega)]

/-- Every access to a storage, direct or through a view constructed from it,
goes through one base pointer. -/
theorem Storage.exists_base (S : Storage T) (h : Heap T) (elems : List T)
    (hS : S.toList h = some elems) :
    ∃ p : Ptr, h.readN elems.length p = some elems ∧ S.size = some elems.length ∧
      (∀ (h' : Heap T) i, S.get h' i = h'.read (p.add i)) ∧
      (∀ q (h' : Heap T) i, (S.view q).get h' i = h'.read (p.add i)) ∧
      (∀ (h' : Heap T) i x, (S.view Qual.mutable).set h' i x = h'.write (p.add i) x) ∧
      (∀ q, (S.view q).size = some elems.length) ∧
      (∀ q, (S.view q).begin_ = p) := by
  cases S with
  | array arr =>
    simp only [Storage.toList] at hS
    have hlen := Heap.readN_length h _ _ _ hS
    refine ⟨arr.begin, by rw [hlen]; exact hS, by simp [Storage.size, hlen], ?_, ?_, ?_, ?_,
      ?_⟩
    · intro h' i
      simp [Storage.get, FixedArray.get, FixedArray.begin, Ptr.add]
    · intro q h' i
      cases q <;> rfl
    · intro h' i x
      rfl
    · intro q
      cases q <;>
        simp [Storage.view, VectorView.ofArray, VectorView.size, VectorView.begin,
          VectorView.«end», FixedArray.begin, FixedArray.«end», Ptr.diff, hlen]
    · intro q
      cases q <;> rfl
  | vector a =>
    simp only [Storage.toList] at hS
    obtain ⟨hs, hr⟩ := Vector.toList_inv hS
    refine ⟨a.begin_, hr, hs, fun _ _ => rfl, ?_, fun _ _ _ => rfl, ?_, ?_⟩
    · intro q h' i
      cases q <;> rfl
    · intro q
      cases q <;> exact hs
    · intro q
      cases q <;> rfl

/-- C12: for a backing storage `S` (a built-in array or a `Vector<T>`) whose
elements are `elems`, the mutable view `V` constructed from `S` (as a `const`
object or not) and every index `i` below the size: the assignment `V[i] = x`
succeeds; afterwards `S[i]` read directly is `x`, index `i` read through the
read-only and the mutable view constructed from `S` is `x`, and every element
of `S` at another index is unchanged. -/
theorem view_write_visible (h : Heap T) (S : Storage T) (elems : List T) (i : Nat) (x : T)
    (hS : S.toList h = some elems) (hi : i < elems.length) :
    (S.view Qual.mutable).size = some elems.length ∧
    ∃ h', (S.view Qual.mutable).set h i x = some h' ∧
      S.get h' i = some x ∧
      (∀ q, (S.view q).get h' i = some x) ∧
      (∀ j, j ≠ i → S.get h' j = S.get h j) := by
  obtain ⟨p, hr, _, hget, hview, hset, hsize, _⟩ := S.exists_base h elems hS
  obtain ⟨h', hw, hrd, hother⟩ := Heap.write_of_readN hr i hi x
  refine ⟨hsize _, h', by rw [hset]; exact hw, by rw [hget]; exact hrd, ?_, ?_⟩
  · intro q
    rw [hview]
    exact hrd
  · intro j hj
    rw [hget, hget]
    exact hother j hj

/-- Witness of `view_write_visible`: `int array[]{ 5, 7, 12 }` and the write
`view[0] = 0` of the `VectorViewAccess` test. -/
theorem view_write_visible_witness :
    (Storage.array test_array).toList test_heap = some [5, 7, 12] ∧ 0 < [5, 7, 12].length ∧
    ((Storage.array test_array : Storage Int).view Qual.mutable).size
      = some [5, 7, 12].length ∧
    ∃ h', ((Storage.array test_array).view Qual.mutable).set test_heap 0 0 = some h' ∧
      (Storage.array test_array).get h' 0 = some 0 ∧
      (∀ q, ((Storage.array test_array).view q).get h' 0 = some 0) ∧
      (∀ j, j ≠ 0 → (Storage.array test_array).get h' j
        = (Storage.array test_array).get test_heap j) :=
  ⟨by decide, by decide,
    view_write_visible test_heap (Storage.array test_array) [5, 7, 12] 0 0 (by decide)
      (by decide)⟩

/-- C13: for a backing storage `S` (a built-in array or a `Vector<T>`) whose
elements are `elems` and the view `V` (read-only or mutable) constructed from
it: `V[i]` is `S[i]` for every index `i` below the size, and traversing `V`
from `begin()` to `end()` yields the elements of `S` in order; the same holds
for the read-only view of a `Vector<const T>`. -/
theorem view_reads_storage (h : Heap T) (S : Storage T) (q : Qual) (elems : List T)
    (c : Vector T Qual.immutable) (hS : S.toList h = some elems) :
    (S.view q).size = some elems.length ∧
    (∀ i, i < elems.length → (S.view q).get h i = S.get h i ∧ S.get h i = elems[i]?) ∧
    (S.view q).toList h = some elems ∧
    (∀ i, c.toVectorView.get h i = c.get h i) ∧ c.toVectorView.toList h = c.toList h := by
  obtain ⟨p, hr, _, hget, hview, _, hsize, hbegin⟩ := S.exists_base h elems hS
  refine ⟨hsize q, ?_, ?_, fun _ => rfl, rfl⟩
  · intro i hi
    rw [hview, hget]
    exact ⟨rfl, Heap.read_of_readN hr i hi⟩
  · unfold VectorView.toList
    rw [hsize q]
    simp only [VectorView.begin]
    rw [hbegin q]
    exact hr

/-- Witness of `view_reads_storage`: the read-only view of
`int array[]{ 5, 7, 12 }`. -/
theorem view_reads_storage_witness :
    (Storage.array test_array).toList test_heap = some [5, 7, 12] ∧
    ((Storage.array test_array : Storage Int).view Qual.immutable).size
      = some [5, 7, 12].length ∧
    (∀ i, i < [5, 7, 12].length →
      ((Storage.array test_array).view Qual.immutable).get test_heap i
          = (Storage.array test_array).get test_heap i ∧
        (Storage.array test_array).get test_heap i = [5, 7, 12][i]?) ∧
    ((Storage.array test_array).view Qual.immutable).toList test_heap = some [5, 7, 12] ∧
    (∀ i, (Vector.default : Vector Int Qual.immutable).toVectorView.get test_heap i
      = (Vector.default : Vector Int Qual.immutable).get test_heap i) ∧
    (Vector.default : Vector Int Qual.immutable).toVectorView.toList test_heap
      = (Vector.default : Vector Int Qual.immutable).toList test_heap :=
  ⟨by decide,
    view_reads_storage test_heap (Storage.array test_array) Qual.immutable [5, 7, 12]
      Vector.default (by decide)⟩

/-- C14: the view (read-only or mutable) constructed from a built-in array of
`N` elements has `end() - begin() = N` and `size() = N`; a default-constructed
view has `size() = 0`; the views obtained by slicing a `Vector<T>` or a
`Vector<const T>` have the size of the vector. -/
theorem view_size (q : Qual) (arr : FixedArray) (a : Vector T Qual.mutable)
    (c : Vector T Qual.immutable) :
    (VectorView.ofArray arr : VectorView T q).size = some arr.extent ∧
    Ptr.diff (VectorView.ofArray arr : VectorView T q).«end»
      (VectorView.ofArray arr : VectorView T q).begin = some arr.extent ∧
    ((Storage.array arr : Storage T).view q).size = (Storage.array arr : Storage T).size ∧
    (VectorView.default : VectorView T q).size = some 0 ∧
    a.toVectorView.size = a.size ∧ a.toVectorView.toConst.size = a.size ∧
    ((Storage.vector a).view q).size = (Storage.vector a).size ∧
    c.toVectorView.size = c.size := by
  have harr : (VectorView.ofArray arr : VectorView T q).size = some arr.extent := by
    simp [VectorView.ofArray, VectorView.size, VectorView.begin, VectorView.«end»,
      FixedArray.begin, FixedArray.«end», Ptr.diff]
  refine ⟨harr, harr, ?_, rfl, rfl, rfl, ?_, rfl⟩
  · cases q <;> exact harr
  · cases q <;> rfl

/-! ## The conversion matrix -/

/-- C15: for every target and source among `VectorView<const T>`,
`VectorView<T>`, `Vector<const T>`, `Vector<T>` and each source value category
(const lvalue, rvalue), the assignment `target = source` is accepted by the
declared assignment operators and constructors exactly when the capability
rule allows it, and exactly when the corresponding `static_assert` of
`test.cpp` asserts assignability. -/
theorem conversion_matrix (target source : Kind) (cat : Category) :
    is_assignable target source cat = legal_by_capability target source cat ∧
    is_assignable target source cat = static_assert_matrix target source cat := by
  cases target with
  | view tq =>
    cases source with
    | view sq => cases tq <;> cases sq <;> cases cat <;> decide
    | vector sq => cases tq <;> cases sq <;> cases cat <;> decide
  | vector tq =>
    cases source with
    | view sq => cases tq <;> cases sq <;> cases cat <;> decide
    | vector sq => cases tq <;> cases sq <;> cases cat <;> decide

/-! ## Single ownership -/

theorem Heap.extent_live {h : Heap T} {b n : Nat} (he : h.extent b = some n) :
    ∃ cells, h.Live b cells ∧ cells.length = n := by
  unfold Heap.extent at he
  cases hb : h.blocks[b]? with
  | none => simp [hb] at he
  | some ob =>
    cases ob with
    | none => simp [hb] at he
    | some cells =>
      simp only [hb, Option.some.injEq] at he
      exact ⟨cells, hb, he⟩

theorem Heap.Live.extent {h : Heap T} {b : Nat} {cells : List T} (hl : h.Live b cells) :
    h.extent b = some cells.length := by
  unfold Heap.Live at hl
  simp [Heap.extent, hl]

theorem Heap.extent_lt {h : Heap T} {b n : Nat} (he : h.extent b = some n) :
    b < h.blocks.length := by
  obtain ⟨cells, hl, _⟩ := Heap.extent_live he
  exact hl.lt

theorem Heap.extent_append {h : Heap T} {b n : Nat} (x : Option (List T))
    (he : h.extent b = some n) : Heap.extent ⟨h.blocks ++ [x]⟩ b = some n := by
  obtain ⟨cells, hl, hn⟩ := Heap.extent_live he
  rw [(Heap.live_append x hl).extent, hn]

theorem Heap.extent_append_new (h : Heap T) (cells : List T) :
    Heap.extent ⟨h.blocks ++ [some cells]⟩ h.blocks.length = some cells.length :=
  (Heap.live_append_new h cells).extent

theorem Heap.write_extent {h h' : Heap T} {p : Ptr} {x : T} (hw : h.write p x = some h')
    (b : Nat) : h'.extent b = h.extent b := by
  cases p with
  | none => simp [Heap.write] at hw
  | some a =>
    simp only [Heap.write] at hw
    split at hw
    · rename_i cells hc
      split at hw
      · simp only [Option.some.injEq] at hw
        rw [← hw]
        unfold Heap.extent
        simp only
        by_cases hb : a.block = b
        · subst hb
          have hlt : a.block < h.blocks.length := Heap.Live.lt hc
          simp [List.getElem?_set, hlt, hc]
        · rw [List.getElem?_set_ne hb]
      · cases hw
    · cases hw

theorem fill_n_extent (v : T) :
    ∀ (k : Nat) (h h' : Heap T) (p : Ptr), fill_n v k h p = some h' →
      ∀ b, h'.extent b = h.extent b := by
  intro k
  induction k with
  | zero =>
    intro h h' p hf b
    simp only [fill_n, Option.some.injEq] at hf
    rw [hf]
  | succ k ih =>
    intro h h' p hf b
    rw [fill_n] at hf
    cases hw : h.write p v with
    | none => simp [hw] at hf
    | some h1 =>
      simp only [hw] at hf
      rw [ih _ _ _ hf b, Heap.write_extent hw b]

theorem fill_extent {h h' : Heap T} {first last : Ptr} {v : T}
    (hf : fill h first last v = some h') (b : Nat) : h'.extent b = h.extent b := by
  unfold fill at hf
  cases hd : Ptr.diff last first with
  | none => simp [hd] at hf
  | some k =>
    simp only [hd] at hf
    exact fill_n_extent v k _ _ _ hf b

namespace Vector

theorem resize_fail_ne (p : Policy T) (s m : Nat) (h : Heap T) (a : Vector T Qual.mutable)
    (hs : a.size = some m) (hne : m ≠ s) :
    resize p s Alloc.fail h a = Result.bad_alloc (h, a) := by
  cases p <;>
    simp [resize, resize_uninitialized, resize_initialized,
      resize_non_preserving_initialized, resize_non_preserving_uninitialized, hs, hne,
      uninitialized_fail]

theorem resize_non_preserving_initialized_eq_fill (s : Nat) (v : T) (r : Alloc T)
    (h h' : Heap T) (a a' : Vector T Qual.mutable) (hs : a.size = some s)
    (hr : resize_non_preserving_initialized s v r h a = Result.ok (h', a')) :
    a' = a ∧ fill h a.begin a.«end» v = some h' := by
  unfold resize_non_preserving_initialized at hr
  rw [resize_non_preserving_uninitialized_eq s r h a hs] at hr
  simp only at hr
  cases hf : fill h a.begin a.«end» v with
  | none => simp [hf] at hr
  | some h2 =>
    simp only [hf, Result.ok.injEq, Prod.mk.injEq] at hr
    obtain ⟨h1, h2'⟩ := hr
    subst h1 h2'
    exact ⟨rfl, rfl⟩

/-- The three ways a resize of a readable vector ends: it returns the same
vector over a heap with the same live blocks and extents; it leaves with
`std::bad_alloc` and nothing changed; or it returns the vector over a fresh
block of the requested size appended to the heap. -/
theorem resize_cases (h : Heap T) (a : Vector T Qual.mutable) (old : List T) (p : Policy T)
    (s : Nat) (r : Alloc T) (hold : a.toList h = some old) :
    (∃ h', resize p s r h a = Result.ok (h', a) ∧ ∀ b, h'.extent b = h.extent b) ∨
    resize p s r h a = Result.bad_alloc (h, a) ∨
    (∃ l : List T, l.length = s ∧
      resize p s r h a = Result.ok (⟨h.blocks ++ [some l]⟩,
        ofMemory (some ⟨h.blocks.length, 0⟩) s)) := by
  obtain ⟨hs, _⟩ := toList_inv hold
  by_cases hn : old.length = s
  · subst hn
    left
    cases p with
    | uninitialized => exact ⟨h, resize_uninitialized_eq _ r h a hs, fun _ => rfl⟩
    | initialized v => exact ⟨h, resize_initialized_eq _ v r h a hs, fun _ => rfl⟩
    | non_preserving_uninitialized =>
      exact ⟨h, resize_non_preserving_uninitialized_eq _ r h a hs, fun _ => rfl⟩
    | non_preserving_initialized v =>
      obtain ⟨h', hr, _⟩ := resize_non_preserving_initialized_eq v r h a old hold
      obtain ⟨_, hf⟩ := resize_non_preserving_initialized_eq_fill _ v r h h' a a hs hr
      exact ⟨h', hr, fun b => fill_extent hf b⟩
  · right
    cases r with
    | fail => left; exact resize_fail_ne p s old.length h a hs hn
    | ok junk =>
      right
      cases p with
      | uninitialized =>
        refine ⟨_, ?_, resize_uninitialized_ne s junk h a old hold hn⟩
        simp only [List.length_append, List.length_take, List.length_drop, List.length_map,
          List.length_range]
        omega
      | initialized v =>
        refine ⟨_, ?_, resize_initialized_ne s v junk h a old hold hn⟩
        simp only [List.length_append, List.length_take, List.length_replicate]
        omega
      | non_preserving_uninitialized =>
        exact ⟨_, by simp, resize_non_preserving_uninitialized_ne s junk h a old.length hs hn⟩
      | non_preserving_initialized v =>
        exact ⟨_, by simp,
          resize_non_preserving_initialized_ne s v junk h a old.length hs hn⟩

end Vector

theorem Obj.Valid.toList {h : Heap T} {a : Vector T Qual.mutable}
    (hv : (Obj.mutable_vector a).Valid h) : ∃ old, a.toList h = some old := by
  obtain ⟨⟨ab, ae⟩⟩ := a
  rcases hv with ⟨hb, he⟩ | ⟨b, n, hb, he, hx⟩
  · simp only [Obj.begin_, Obj.end_] at hb he
    subst hb he
    exact ⟨[], by simp [Vector.toList, VectorView.toList, VectorView.size, VectorView.begin,
      VectorView.«end», Ptr.diff, Heap.readN]⟩
  · simp only [Obj.begin_, Obj.end_] at hb he
    subst hb he
    obtain ⟨cells, hl, hn⟩ := Heap.extent_live hx
    subst hn
    have := Vector.toList_ofMemory (q := Qual.mutable) hl
    simp only [Vector.ofMemory, Ptr.add, Nat.zero_add] at this
    exact ⟨cells, this⟩

theorem list_getElem?_snoc_cases {α : Type} (l : List α) (y o : α) (k : Nat)
    (hk : (l ++ [y])[k]? = some o) :
    (k < l.length ∧ l[k]? = some o) ∨ (k = l.length ∧ o = y) := by
  rw [List.getElem?_append] at hk
  by_cases hlt : k < l.length
  · rw [if_pos hlt] at hk
    exact Or.inl ⟨hlt, hk⟩
  · rw [if_neg hlt] at hk
    right
    have hk0 : k - l.length = 0 := by
      rcases Nat.eq_zero_or_pos (k - l.length) with h0 | hpos
      · exact h0
      · rw [List.getElem?_eq_none (by simp; omega)] at hk
        cases hk
    rw [hk0] at hk
    simp only [List.getElem?_cons_zero, Option.some.injEq] at hk
    exact ⟨by omega, hk.symm⟩

theorem list_getElem?_set_cases {α : Type} (l : List α) (x o : α) (i k : Nat)
    (hk : (l.set i x)[k]? = some o) :
    (k = i ∧ o = x) ∨ (k ≠ i ∧ l[k]? = some o) := by
  rw [List.getElem?_set] at hk
  by_cases hik : i = k
  · rw [if_pos hik] at hk
    left
    split at hk
    · exact ⟨hik.symm, (Option.some.inj hk).symm⟩
    · cases hk
  · rw [if_neg hik] at hk
    exact Or.inr ⟨fun h => hik h.symm, hk⟩

theorem list_getElem?_lt {α : Type} {l : List α} {k : Nat} {o : α} (hk : l[k]? = some o) :
    k < l.length := by
  rcases Nat.lt_or_ge k l.length with hlt | hge
  · exact hlt
  · rw [List.getElem?_eq_none hge] at hk
    cases hk

namespace Obj

theorem Valid.congr {h : Heap T} {o o' : Obj T} (hv : o.Valid h) (hb : o'.begin_ = o.begin_)
    (he : o'.end_ = o.end_) : o'.Valid h := by
  unfold Obj.Valid at *
  rw [hb, he]
  exact hv

theorem Valid.null (h : Heap T) {o : Obj T} (hb : o.begin_ = none) (he : o.end_ = none) :
    o.Valid h := Or.inl ⟨hb, he⟩

theorem Valid.of_extent {h h' : Heap T} {o : Obj T} (hv : o.Valid h)
    (hx : ∀ b, h'.extent b = h.extent b) : o.Valid h' := by
  rcases hv with hnull | ⟨b, n, hb, he, hn⟩
  · exact Or.inl hnull
  · exact Or.inr ⟨b, n, hb, he, by rw [hx]; exact hn⟩

theorem Valid.append {h : Heap T} {o : Obj T} (hv : o.Valid h) (x : Option (List T)) :
    o.Valid ⟨h.blocks ++ [x]⟩ := by
  rcases hv with hnull | ⟨b, n, hb, he, hn⟩
  · exact Or.inl hnull
  · exact Or.inr ⟨b, n, hb, he, Heap.extent_append x hn⟩

theorem Valid.fresh (h : Heap T) (cells : List T) {o : Obj T}
    (hb : o.begin_ = some ⟨h.blocks.length, 0⟩)
    (he : o.end_ = some ⟨h.blocks.length, cells.length⟩) :
    o.Valid ⟨h.blocks ++ [some cells]⟩ :=
  Or.inr ⟨_, _, hb, he, Heap.extent_append_new h cells⟩

theorem Valid.block_lt {h : Heap T} {o : Obj T} (hv : o.Valid h) {a : Addr}
    (hb : o.begin_ = some a) : a.block < h.blocks.length := by
  rcases hv with ⟨hnull, _⟩ | ⟨b, n, hb', _, hn⟩
  · rw [hnull] at hb
    cases hb
  · rw [hb'] at hb
    have := Option.some.inj hb
    subst this
    exact Heap.extent_lt hn

end Obj

namespace World

theorem Inv.append_null {h : Heap T} {l : List (Obj T)} (hinv : Inv ⟨h, l⟩) (y : Obj T)
    (hb : y.begin_ = none) (he : y.end_ = none) : Inv ⟨h, l ++ [y]⟩ := by
  obtain ⟨hval, hown⟩ := hinv
  constructor
  · intro i o hi
    rcases list_getElem?_snoc_cases l y o i hi with ⟨_, hi'⟩ | ⟨_, ho⟩
    · exact hval i o hi'
    · subst ho
      exact Obj.Valid.null h hb he
  · intro i j oi oj hij hi hj heq
    rcases list_getElem?_snoc_cases l y oi i hi with ⟨_, hi'⟩ | ⟨_, hoi⟩
    · rcases list_getElem?_snoc_cases l y oj j hj with ⟨_, hj'⟩ | ⟨_, hoj⟩
      · exact hown i j oi oj hij hi' hj' heq
      · subst hoj
        rw [heq, hb]
    · subst hoi
      exact hb

theorem Inv.append_fresh {h : Heap T} {l : List (Obj T)} (hinv : Inv ⟨h, l⟩) (y : Obj T)
    (cells : List T) (hb : y.begin_ = some ⟨h.blocks.length, 0⟩)
    (he : y.end_ = some ⟨h.blocks.length, cells.length⟩) :
    Inv ⟨⟨h.blocks ++ [some cells]⟩, l ++ [y]⟩ := by
  obtain ⟨hval, hown⟩ := hinv
  constructor
  · intro i o hi
    rcases list_getElem?_snoc_cases l y o i hi with ⟨_, hi'⟩ | ⟨_, ho⟩
    · exact (hval i o hi').append _
    · subst ho
      exact Obj.Valid.fresh h cells hb he
  · intro i j oi oj hij hi hj heq
    rcases list_getElem?_snoc_cases l y oi i hi with ⟨_, hi'⟩ | ⟨hil, hoi⟩
    · rcases list_getElem?_snoc_cases l y oj j hj with ⟨_, hj'⟩ | ⟨_, hoj⟩
      · exact hown i j oi oj hij hi' hj' heq
      · subst hoj
        exfalso
        have hlt := (hval i oi hi').block_lt (heq.trans hb)
        simp at hlt
    · rcases list_getElem?_snoc_cases l y oj j hj with ⟨_, hj'⟩ | ⟨hjl, _⟩
      · subst hoi
        exfalso
        have hlt := (hval j oj hj').block_lt (heq.symm.trans hb)
        simp at hlt
      · omega

theorem Inv.set_fresh {h : Heap T} {l : List (Obj T)} (hinv : Inv ⟨h, l⟩) (y : Obj T)
    (k : Nat) (cells : List T) (hb : y.begin_ = some ⟨h.blocks.length, 0⟩)
    (he : y.end_ = some ⟨h.blocks.length, cells.length⟩) :
    Inv ⟨⟨h.blocks ++ [some cells]⟩, l.set k y⟩ := by
  obtain ⟨hval, hown⟩ := hinv
  constructor
  · intro i o hi
    rcases list_getElem?_set_cases l y o k i hi with ⟨_, ho⟩ | ⟨_, hi'⟩
    · subst ho
      exact Obj.Valid.fresh h cells hb he
    · exact (hval i o hi').append _
  · intro i j oi oj hij hi hj heq
    rcases list_getElem?_set_cases l y oi k i hi with ⟨hik, hoi⟩ | ⟨hik, hi'⟩
    · rcases list_getElem?_set_cases l y oj k j hj with ⟨hjk, _⟩ | ⟨_, hj'⟩
      · omega
      · subst hoi
        exfalso
        have hlt := (hval j oj hj').block_lt (heq.symm.trans hb)
        simp at hlt
    · rcases list_getElem?_set_cases l y oj k j hj with ⟨_, hoj⟩ | ⟨_, hj'⟩
      · subst hoj
        exfalso
        have hlt := (hval i oi hi').block_lt (heq.trans hb)
        simp at hlt
      · exact hown i j oi oj hij hi' hj' heq

theorem Inv.set_same {h h' : Heap T} {l : List (Obj T)} (hinv : Inv ⟨h, l⟩) (o : Obj T)
    (k : Nat) (hk : l[k]? = some o) (hx : ∀ b, h'.extent b = h.extent b) :
    Inv ⟨h', l.set k o⟩ := by
  rw [list_set_self l k o hk]
  obtain ⟨hval, hown⟩ := hinv
  exact ⟨fun i o hi => (hval i o hi).of_extent hx, hown⟩

theorem Inv.move_append {h : Heap T} {l : List (Obj T)} (hinv : Inv ⟨h, l⟩) (s x y : Obj T)
    (src : Nat) (hs : l[src]? = some s) (hxb : x.begin_ = none) (hxe : x.end_ = none)
    (hyb : y.begin_ = s.begin_) (hye : y.end_ = s.end_) :
    Inv ⟨h, l.set src x ++ [y]⟩ := by
  obtain ⟨hval, hown⟩ := hinv
  constructor
  · intro i o hi
    rcases list_getElem?_snoc_cases _ y o i hi with ⟨_, hi'⟩ | ⟨_, ho⟩
    · rcases list_getElem?_set_cases l x o src i hi' with ⟨_, ho⟩ | ⟨_, hi''⟩
      · subst ho
        exact Obj.Valid.null h hxb hxe
      · exact hval i o hi''
    · subst ho
      exact (hval src s hs).congr hyb hye
  · intro i j oi oj hij hi hj heq
    rcases list_getElem?_snoc_cases _ y oi i hi with ⟨_, hi'⟩ | ⟨hil, hoi⟩
    · rcases list_getElem?_set_cases l x oi src i hi' with ⟨_, hoi⟩ | ⟨hisrc, hi''⟩
      · subst hoi
        exact hxb
      · rcases list_getElem?_snoc_cases _ y oj j hj with ⟨_, hj'⟩ | ⟨_, hoj⟩
        · rcases list_getElem?_set_cases l x oj src j hj' with ⟨_, hoj⟩ | ⟨_, hj''⟩
          · subst hoj
            rw [heq, hxb]
          · exact hown i j oi oj hij hi'' hj'' heq
        · subst hoj
          exact hown i src oi s hisrc hi'' hs (heq.trans hyb)
    · subst hoi
      rcases list_getElem?_snoc_cases _ oi oj j hj with ⟨_, hj'⟩ | ⟨hjl, _⟩
      · rcases list_getElem?_set_cases l x oj src j hj' with ⟨_, hoj⟩ | ⟨hjsrc, hj''⟩
        · subst hoj
          rw [heq, hxb]
        · rw [hyb]
          exact hown src j s oj (fun e => hjsrc e.symm) hs hj'' (hyb.symm.trans heq)
      · omega

theorem Inv.move_set {h : Heap T} {l : List (Obj T)} (hinv : Inv ⟨h, l⟩) (s x y : Obj T)
    (dst src : Nat) (hs : l[src]? = some s) (hxb : x.begin_ = none) (hxe : x.end_ = none)
    (hyb : y.begin_ = s.begin_) (hye : y.end_ = s.end_) :
    Inv ⟨h, (l.set src x).set dst y⟩ := by
  obtain ⟨hval, hown⟩ := hinv
  constructor
  · intro i o hi
    rcases list_getElem?_set_cases _ y o dst i hi with ⟨_, ho⟩ | ⟨_, hi'⟩
    · subst ho
      exact (hval src s hs).congr hyb hye
    · rcases list_getElem?_set_cases l x o src i hi' with ⟨_, ho⟩ | ⟨_, hi''⟩
      · subst ho
        exact Obj.Valid.null h hxb hxe
      · exact hval i o hi''
  · intro i j oi oj hij hi hj heq
    rcases list_getElem?_set_cases _ y oi dst i hi with ⟨hid, hoi⟩ | ⟨hid, hi'⟩
    · subst hoi
      rcases list_getElem?_set_cases _ oi oj dst j hj with ⟨hjd, _⟩ | ⟨_, hj'⟩
      · omega
      · rcases list_getElem?_set_cases l x oj src j hj' with ⟨_, hoj⟩ | ⟨hjsrc, hj''⟩
        · subst hoj
          rw [heq, hxb]
        · rw [hyb]
          exact hown src j s oj (fun e => hjsrc e.symm) hs hj'' (hyb.symm.trans heq)
    · rcases list_getElem?_set_cases l x oi src i hi' with ⟨_, hoi⟩ | ⟨hisrc, hi''⟩
      · subst hoi
        exact hxb
      · rcases list_getElem?_set_cases _ y oj dst j hj with ⟨_, hoj⟩ | ⟨_, hj'⟩
        · subst hoj
          exact hown i src oi s hisrc hi'' hs (heq.trans hyb)
        · rcases list_getElem?_set_cases l x oj src j hj' with ⟨_, hoj⟩ | ⟨_, hj''⟩
          · subst hoj
            rw [heq, hxb]
          · exact hown i j oi oj hij hi'' hj'' heq

end World

namespace World

theorem Inv.construct {w : World T} (hinv : w.Inv) (s : Nat)
    (res : Result (Heap T) (Heap T × Vector T Qual.mutable))
    (hres : res = Result.bad_alloc w.heap ∨ ∃ cells : List T, cells.length = s ∧
      res = Result.ok (⟨w.heap.blocks ++ [some cells]⟩,
        Vector.ofMemory (some ⟨w.heap.blocks.length, 0⟩) s)) :
    ∃ w', w.construct res = some w' ∧ w'.Inv := by
  rcases hres with hres | ⟨cells, hlen, hres⟩
  · subst hres
    exact ⟨_, rfl, hinv⟩
  · subst hres
    refine ⟨_, rfl, ?_⟩
    subst hlen
    exact Inv.append_fresh hinv _ cells rfl (by simp [Obj.end_, Vector.ofMemory, Ptr.add])

/-- Every applicable operation runs to a world that satisfies the invariant. -/
theorem Inv.step {w : World T} (hinv : w.Inv) (op : Op T) (happ : w.applies op = true) :
    ∃ w', w.step op = some w' ∧ w'.Inv := by
  cases op with
  | construct_default q =>
    cases q
    · exact ⟨_, rfl, Inv.append_null hinv _ rfl rfl⟩
    · exact ⟨_, rfl, Inv.append_null hinv _ rfl rfl⟩
  | construct_uninitialized s r =>
    apply Inv.construct hinv s
    cases r with
    | fail => exact Or.inl rfl
    | ok junk => exact Or.inr ⟨_, by simp, Vector.uninitialized_ok s junk w.heap⟩
  | construct_initialized s value r =>
    apply Inv.construct hinv s
    cases r with
    | fail => exact Or.inl rfl
    | ok junk => exact Or.inr ⟨_, by simp, Vector.initialized_ok s value junk w.heap⟩
  | construct_list l r =>
    apply Inv.construct hinv l.length
    cases r with
    | fail => exact Or.inl rfl
    | ok junk => exact Or.inr ⟨_, rfl, Vector.ofList_ok l junk w.heap⟩
  | move_construct src =>
    simp only [World.step]
    cases hs : w.arrays[src]? with
    | none => simp [World.applies, hs] at happ
    | some s =>
      cases s with
      | const_vector c => exact ⟨_, rfl, Inv.move_append hinv _ _ _ src hs rfl rfl rfl rfl⟩
      | mutable_vector a => exact ⟨_, rfl, Inv.move_append hinv _ _ _ src hs rfl rfl rfl rfl⟩
  | move_assign dst src =>
    simp only [World.step]
    cases hd : w.arrays[dst]? with
    | none => simp [World.applies, hd] at happ
    | some d =>
      cases hs : w.arrays[src]? with
      | none => cases d <;> simp [World.applies, hd, hs] at happ
      | some s =>
        cases d with
        | const_vector d =>
          cases s with
          | const_vector c =>
            exact ⟨_, rfl, Inv.move_set hinv _ _ _ dst src hs rfl rfl rfl rfl⟩
          | mutable_vector a => simp [World.applies, hd, hs] at happ
        | mutable_vector d =>
          cases s with
          | const_vector c => simp [World.applies, hd, hs] at happ
          | mutable_vector a =>
            exact ⟨_, rfl, Inv.move_set hinv _ _ _ dst src hs rfl rfl rfl rfl⟩
  | move_construct_converting src =>
    simp only [World.step]
    cases hs : w.arrays[src]? with
    | none => simp [World.applies, hs] at happ
    | some s =>
      cases s with
      | const_vector c => simp [World.applies, hs] at happ
      | mutable_vector a => exact ⟨_, rfl, Inv.move_append hinv _ _ _ src hs rfl rfl rfl rfl⟩
  | move_assign_converting dst src =>
    simp only [World.step]
    cases hd : w.arrays[dst]? with
    | none => simp [World.applies, hd] at happ
    | some d =>
      cases hs : w.arrays[src]? with
      | none => cases d <;> simp [World.applies, hd, hs] at happ
      | some s =>
        cases d with
        | const_vector d =>
          cases s with
          | const_vector c => simp [World.applies, hd, hs] at happ
          | mutable_vector a =>
            exact ⟨_, rfl, Inv.move_set hinv _ _ _ dst src hs rfl rfl rfl rfl⟩
        | mutable_vector d => cases s <;> simp [World.applies, hd, hs] at happ
  | resize i p s r =>
    simp only [World.step]
    cases hi : w.arrays[i]? with
    | none => simp [World.applies, hi] at happ
    | some o =>
      cases o with
      | const_vector c => simp [World.applies, hi] at happ
      | mutable_vector a =>
        simp only
        obtain ⟨old, hold⟩ := (hinv.1 i _ hi).toList
        rcases Vector.resize_cases w.heap a old p s r hold with
          ⟨h', hr, hx⟩ | hr | ⟨l, hlen, hr⟩
        · rw [hr]
          exact ⟨_, rfl, Inv.set_same hinv _ i hi hx⟩
        · rw [hr]
          exact ⟨_, rfl, Inv.set_same hinv _ i hi (fun _ => rfl)⟩
        · rw [hr]
          refine ⟨_, rfl, ?_⟩
          subst hlen
          exact Inv.set_fresh hinv _ i l rfl (by simp [Obj.end_, Vector.ofMemory, Ptr.add])

theorem step_applies {w w' : World T} {op : Op T} (hs : w.step op = some w') :
    w.applies op = true := by
  cases op with
  | construct_default q => rfl
  | construct_uninitialized s r => rfl
  | construct_initialized s value r => rfl
  | construct_list l r => rfl
  | move_construct src =>
    simp only [World.step] at hs
    simp only [World.applies]
    cases hsrc : w.arrays[src]? with
    | none => simp [hsrc] at hs
    | some s => rfl
  | move_assign dst src =>
    simp only [World.step] at hs
    simp only [World.applies]
    split at hs <;> first | rfl | cases hs
  | move_construct_converting src =>
    simp only [World.step] at hs
    simp only [World.applies]
    split at hs <;> first | rfl | cases hs
  | move_assign_converting dst src =>
    simp only [World.step] at hs
    simp only [World.applies]
    split at hs <;> first | rfl | cases hs
  | resize i p s r =>
    simp only [World.step] at hs
    simp only [World.applies]
    split at hs <;> first | rfl | cases hs

theorem Inv.run :
    ∀ (ops : List (Op T)) (w w' : World T), w.Inv → w.run ops = some w' → w'.Inv := by
  intro ops
  induction ops with
  | nil =>
    intro w w' hinv hr
    simp only [World.run, Option.some.injEq] at hr
    rw [← hr]
    exact hinv
  | cons op ops ih =>
    intro w w' hinv hr
    rw [World.run] at hr
    cases hs : w.step op with
    | none => simp [hs] at hr
    | some w1 =>
      simp only [hs] at hr
      obtain ⟨w2, hs2, hinv2⟩ := hinv.step op (step_applies hs)
      rw [hs] at hs2
      have := Option.some.inj hs2
      subst this
      exact ih _ _ hinv2 hr

theorem Inv.initial (h0 : Heap T) : Inv ⟨h0, []⟩ := by
  constructor
  · intro i o hi
    simp at hi
  · intro i j oi oj _ hi
    simp at hi

end World

theorem Obj.destroy_eq (h : Heap T) (o : Obj T) : o.destroy h = h.delete o.begin_ := by
  cases o <;> rfl

theorem Heap.delete_live {h : Heap T} {b n : Nat} (he : h.extent b = some n) :
    h.delete (some ⟨b, 0⟩) = some ⟨h.blocks.set b none⟩ := by
  obtain ⟨cells, hl, _⟩ := Heap.extent_live he
  unfold Heap.Live at hl
  simp [Heap.delete, hl]

theorem Heap.extent_set_other (h : Heap T) (b b' : Nat) (x : Option (List T)) (hne : b ≠ b') :
    Heap.extent ⟨h.blocks.set b' x⟩ b = h.extent b := by
  unfold Heap.extent
  simp only
  rw [List.getElem?_set_ne (Ne.symm hne)]

/-- Destroying valid arrays with pairwise distinct blocks never meets a block
that was already released. -/
theorem destroy_all_ok :
    ∀ (l : List (Obj T)) (h : Heap T), (∀ (i : Nat) (o : Obj T), l[i]? = some o → o.Valid h) →
      SingleOwner l → ∃ h', destroy_all h l = some h' := by
  intro l
  induction l with
  | nil => intro h _ _; exact ⟨h, rfl⟩
  | cons o os ih =>
    intro h hval hown
    have hown' : SingleOwner os := by
      intro i j oi oj hij hi hj heq
      exact hown (i + 1) (j + 1) oi oj (by omega) (by simpa using hi) (by simpa using hj) heq
    rw [destroy_all, Obj.destroy_eq]
    rcases hval 0 o (by simp) with ⟨hb, _⟩ | ⟨b, n, hb, _, hn⟩
    · rw [hb]
      simp only [Heap.delete]
      exact ih h (fun i o' hi => hval (i + 1) o' (by simpa using hi)) hown'
    · rw [hb, Heap.delete_live hn]
      simp only
      apply ih _ _ hown'
      intro i o' hi
      have hv' := hval (i + 1) o' (by simpa using hi)
      rcases hv' with hnull | ⟨b', n', hb', he', hn'⟩
      · exact Or.inl hnull
      · refine Or.inr ⟨b', n', hb', he', ?_⟩
        have hne : b' ≠ b := by
          intro hbb
          subst hbb
          have := hown 0 (i + 1) o o' (by omega) (by simp) (by simpa using hi)
            (hb.trans hb'.symm)
          rw [hb] at this
          cases this
        rw [Heap.extent_set_other h b' b none hne]
        exact hn'

/-- C16: start with no owning arrays on any heap and run any sequence of
constructions (default, size, value-filled, literal-list), move constructions,
move assignments, converting moves and resizes. In the world reached, no two
arrays at different positions have the same non-null `begin_`; destroying all
the arrays one after the other succeeds, so no `delete[]` meets a block that
was already released; and every further applicable operation is defined. -/
theorem single_owner_invariant (h0 : Heap T) (ops : List (Op T)) (w : World T)
    (hrun : World.run ⟨h0, []⟩ ops = some w) :
    (∀ (i j : Nat) (oi oj : Obj T), i ≠ j → w.arrays[i]? = some oi →
      w.arrays[j]? = some oj → oi.begin_ = oj.begin_ → oi.begin_ = none) ∧
    (∃ h', destroy_all w.heap w.arrays = some h') ∧
    (∀ op, w.applies op = true → ∃ w', w.step op = some w') := by
  have hinv := World.Inv.run ops _ w (World.Inv.initial h0) hrun
  refine ⟨hinv.2, destroy_all_ok w.arrays w.heap hinv.1 hinv.2, ?_⟩
  intro op happ
  obtain ⟨w', hs, _⟩ := hinv.step op happ
  exact ⟨w', hs⟩

/-- Witness of `single_owner_invariant`: the program `test_ops` on the empty
heap. -/
theorem single_owner_invariant_witness :
    World.run ⟨Heap.empty, []⟩ test_ops = some test_world ∧
    (∀ (i j : Nat) (oi oj : Obj Int), i ≠ j → test_world.arrays[i]? = some oi →
      test_world.arrays[j]? = some oj → oi.begin_ = oj.begin_ → oi.begin_ = none) ∧
    (∃ h', destroy_all test_world.heap test_world.arrays = some h') ∧
    (∀ op, test_world.applies op = true → ∃ w', test_world.step op = some w') :=
  ⟨by decide, single_owner_invariant Heap.empty test_ops test_world (by decide)⟩

end containers2
